import Mathlib

/-!
# Limit order book: `OrderBook::add_limit` and `OrderBook::cancel`

A shallow embedding of `src/src/order_book.cpp`.  The two price maps
(`std::map` keyed by price, bids with `std::greater`, asks with `std::less`)
and the order index are association lists kept in the iteration order of the
C++ container, so that two equal containers are equal lists.  The map
operations below assume, but do not require, that the list is ordered with
distinct keys; separate lemmas show that every state reachable through
`add_limit` and `cancel` is.

The header `order_book.hpp` and the matching engine are not among the sources.
The types of the header are read off their uses in `order_book.cpp` and
`main.cpp`; `best_bid`, `best_ask`, `mid`, `submit_limit` and `submit_market`
are modelled from the specification, on top of the embedded `add_limit` and
`cancel`.
-/

namespace LobSim

/-! ## Ordered maps -/

/-- An ordered map as the list of its bindings, in iteration order. -/
abbrev SMap (κ ν : Type) := List (κ × ν)

namespace SMap

variable {κ ν : Type} [DecidableEq κ]

/-- The value bound to `k` (`m.find(k)`), `none` for `m.end()`. -/
def find : SMap κ ν → κ → Option ν
  | [], _ => none
  | (k', v) :: rest, k => if k' = k then some v else find rest k

/-- Places the binding `(k, v)` in front of the first key that `k` precedes under the
comparator `before`. -/
def orderedInsert (before : κ → κ → Prop) [DecidableRel before] :
    SMap κ ν → κ → ν → SMap κ ν
  | [], k, v => [(k, v)]
  | (k', v') :: rest, k, v =>
      if before k k' then (k, v) :: (k', v') :: rest
      else (k', v') :: orderedInsert before rest k v

/-- The map after `m.emplace(k, v)`, and after `m[k]` with `v` the default value: a key
already bound keeps its binding, a new key is bound to `v` at its place in the order. -/
def insertIfAbsent (before : κ → κ → Prop) [DecidableRel before]
    (m : SMap κ ν) (k : κ) (v : ν) : SMap κ ν :=
  match find m k with
  | some _ => m
  | none => orderedInsert before m k v

/-- Writes through the iterator `m.find(k)`: the value bound to `k` becomes `f` of it. -/
def modify : SMap κ ν → κ → (ν → ν) → SMap κ ν
  | [], _, _ => []
  | (k', v) :: rest, k, f =>
      if k' = k then (k', f v) :: rest else (k', v) :: modify rest k f

/-- The map after `m.erase(it)` for `it = m.find(k)`: no binding of `k` is left. -/
def erase (m : SMap κ ν) (k : κ) : SMap κ ν :=
  m.filter (fun e => decide (e.1 ≠ k))

/-- The bindings are in the comparator's strict order (so the keys are distinct). -/
def Ordered (before : κ → κ → Prop) (m : SMap κ ν) : Prop :=
  List.Pairwise (fun a b => before a.1 b.1) m

end SMap

/-! ## Data model -/

/-- Modelled from the spec: the `OrderId` alias of the header `order_book.hpp`, which is
not among the sources; an unsigned integer identifier. -/
abbrev OrderId := Nat

/-- Modelled from the spec: the `Price` alias of `order_book.hpp`; integer ticks. -/
abbrev Price := Int

/-- Modelled from the spec: the `Qty` alias of `order_book.hpp`; an integer quantity. -/
abbrev Qty := Int

/-- Modelled from the spec: the `TimePoint` alias of `order_book.hpp`.  The book only
copies a time stamp, it never computes with one; it is carried as a count of hundredths. -/
abbrev TimePoint := Nat

/-- The two sides, `enum class Side { Buy, Sell }` of `order.hpp`. -/
inductive Side where
  | Buy
  | Sell
deriving DecidableEq

/-- Modelled from the spec: the `OrdType` enumeration of `order_book.hpp` (Limit or
Market). -/
inductive OrdType where
  | Limit
  | Market
deriving DecidableEq

/-- Modelled from the spec: the `Order` record of `order_book.hpp`, with the fields that
`order_book.cpp` and `main.cpp` read and write, in the order of `main.cpp`. -/
structure Order where
  id : OrderId
  side : Side
  type : OrdType
  limit_price : Price
  qty : Qty
  ts : TimePoint
deriving DecidableEq

/-- Modelled from the spec: the `IndexEntry` record of `order_book.hpp`, built in
`add_limit` as `IndexEntry{ side, px, pos }`. -/
structure IndexEntry where
  side : Side
  px : Price
  pos : Nat
deriving DecidableEq

/-- Modelled from the spec: `LevelQueue` of `order_book.hpp`, the random-access FIFO
sequence of the orders resting at one price. -/
abbrev LevelQueue := List Order

/-- Modelled from the spec: the data members of `OrderBook` in `order_book.hpp`: `bids`
iterates from the highest price down, `asks` from the lowest price up, `index` maps an
order id to its location and is listed by increasing id. -/
structure OrderBook where
  bids : SMap Price LevelQueue
  asks : SMap Price LevelQueue
  index : SMap OrderId IndexEntry
deriving DecidableEq

/-- A default-constructed `OrderBook`. -/
def OrderBook.empty : OrderBook := ⟨[], [], []⟩

/-- The comparator of `bids`, `std::greater<Price>`. -/
abbrev bidBefore : Price → Price → Prop := fun a c => a > c

/-- The comparator of `asks`, `std::less<Price>`. -/
abbrev askBefore : Price → Price → Prop := fun a c => a < c

/-- The order of the index listing, by increasing id. -/
abbrev idBefore : OrderId → OrderId → Prop := fun a c => a < c

/-- The two `std::invalid_argument` exceptions of `add_limit`, told apart by message. -/
inductive BookError where
  | InvalidOrderKind
  | DuplicateOrderId
deriving DecidableEq

/-- The outcome of a call that may throw. -/
inductive Outcome where
  | ok
  | threw (e : BookError)
deriving DecidableEq

/-! ## `OrderBook::add_limit` -/

/-- The map after `auto& q = m[px]; q.push_back(o);`. -/
def pushLevel (before : Price → Price → Prop) [DecidableRel before]
    (m : SMap Price LevelQueue) (px : Price) (o : Order) : SMap Price LevelQueue :=
  SMap.modify (SMap.insertIfAbsent before m px []) px (fun q => q ++ [o])

/-- `OrderBook::add_limit`: the outcome and the book the call leaves behind (the book
at the throw when it throws). -/
def add_limit (b : OrderBook) (o : Order) : Outcome × OrderBook :=
  if o.type ≠ OrdType.Limit then (Outcome.threw BookError.InvalidOrderKind, b)
  else if (SMap.find b.index o.id).isSome then (Outcome.threw BookError.DuplicateOrderId, b)
  else if o.side = Side.Buy then
    let bids1 := pushLevel bidBefore b.bids o.limit_price o
    let pos := ((SMap.find bids1 o.limit_price).getD []).length - 1
    (Outcome.ok,
      { bids := bids1, asks := b.asks,
        index := SMap.insertIfAbsent idBefore b.index o.id ⟨Side.Buy, o.limit_price, pos⟩ })
  else
    let asks1 := pushLevel askBefore b.asks o.limit_price o
    let pos := ((SMap.find asks1 o.limit_price).getD []).length - 1
    (Outcome.ok,
      { bids := b.bids, asks := asks1,
        index := SMap.insertIfAbsent idBefore b.index o.id ⟨Side.Sell, o.limit_price, pos⟩ })

/-! ## `OrderBook::cancel` -/

/-- The re-index loop `for (p = pos; p < q.size(); ++p)` of `cancel`, run over the orders
`q[p], q[p+1], ...` of the queue after the erase: an order found in the index gets `p` as
its position. -/
def reindexFrom : Nat → List Order → SMap OrderId IndexEntry → SMap OrderId IndexEntry
  | _, [], idx => idx
  | p, o :: rest, idx =>
      reindexFrom (p + 1) rest (SMap.modify idx o.id (fun e => { e with pos := p }))

/-- One side's branch of `cancel`, the same text for `bids` and for `asks`: from the
side's map and the index to what the branch leaves of both, the index entry of `id`
erased on every path. -/
def cancelIn (m : SMap Price LevelQueue) (index : SMap OrderId IndexEntry)
    (id : OrderId) (px : Price) (pos : Nat) :
    SMap Price LevelQueue × SMap OrderId IndexEntry :=
  match SMap.find m px with
  | none => (m, SMap.erase index id)
  | some q =>
    if pos ≥ q.length then (m, SMap.erase index id)
    else
      let q1 := q.eraseIdx pos
      let index1 := reindexFrom pos (q1.drop pos) index
      let m1 := SMap.modify m px (fun _ => q1)
      let m2 := if q1.isEmpty then SMap.erase m1 px else m1
      (m2, SMap.erase index1 id)

/-- `OrderBook::cancel`: the book after the call, which never throws. -/
def cancel (b : OrderBook) (id : OrderId) : OrderBook :=
  match SMap.find b.index id with
  | none => b
  | some e =>
    if e.side = Side.Buy then
      let r := cancelIn b.bids b.index id e.px e.pos
      { bids := r.1, asks := b.asks, index := r.2 }
    else
      let r := cancelIn b.asks b.index id e.px e.pos
      { bids := b.bids, asks := r.1, index := r.2 }

/-! ## Reachable books and observations -/

/-- The books reachable from the empty book by calls of `add_limit` (throwing ones
included) and `cancel`. -/
inductive Reachable : OrderBook → Prop where
  | empty : Reachable OrderBook.empty
  | add_limit (b : OrderBook) (o : Order) : Reachable b → Reachable (add_limit b o).2
  | cancel (b : OrderBook) (id : OrderId) : Reachable b → Reachable (cancel b id)

/-- The price map of one side. -/
def OrderBook.levels (b : OrderBook) : Side → SMap Price LevelQueue
  | Side.Buy => b.bids
  | Side.Sell => b.asks

/-- The queue of the level `(s, px)`, empty when the level is absent. -/
def OrderBook.queue (b : OrderBook) (s : Side) (px : Price) : LevelQueue :=
  (SMap.find (b.levels s) px).getD []

/-- The sum of the queue lengths over the levels of a price map. -/
def restingCount (m : SMap Price LevelQueue) : Nat :=
  (m.map (fun e => e.2.length)).sum

/-- The consistency of a book: the three maps are in their container order, no level has
an empty queue, every index entry points at its own order, every resting order is indexed
at exactly its place, and the index has as many entries as orders rest. -/
structure Inv (b : OrderBook) : Prop where
  bids_ordered : SMap.Ordered bidBefore b.bids
  asks_ordered : SMap.Ordered askBefore b.asks
  index_ordered : SMap.Ordered idBefore b.index
  nonempty : ∀ s px q, SMap.find (b.levels s) px = some q → q ≠ []
  sound : ∀ id e, SMap.find b.index id = some e →
    ∃ q o, SMap.find (b.levels e.side) e.px = some q ∧ q[e.pos]? = some o ∧
      o.id = id ∧ o.side = e.side ∧ o.limit_price = e.px
  complete : ∀ s px q p o, SMap.find (b.levels s) px = some q → q[p]? = some o →
    SMap.find b.index o.id = some ⟨s, px, p⟩
  count : b.index.length = restingCount b.bids + restingCount b.asks

/-- The entry that `cancel` of the order located at `e` leaves for an order located at
`e1`: one place lower when `e1` is behind `e` in the same queue, `e1` itself otherwise. -/
def shifted (e e1 : IndexEntry) : IndexEntry :=
  if e1.side = e.side ∧ e1.px = e.px ∧ e.pos < e1.pos then { e1 with pos := e1.pos - 1 } else e1

instance bidBefore_order : IsStrictTotalOrder Price bidBefore where
  trichotomous := fun (a c : Int) => by
    show a > c ∨ a = c ∨ c > a
    omega
  irrefl := fun (a : Int) => by
    show ¬ a > a
    omega
  trans := fun (a c d : Int) => by
    show a > c → c > d → a > d
    omega

instance askBefore_order : IsStrictTotalOrder Price askBefore :=
  inferInstanceAs (IsStrictTotalOrder Int (· < ·))

instance idBefore_order : IsStrictTotalOrder OrderId idBefore :=
  inferInstanceAs (IsStrictTotalOrder Nat (· < ·))

/-- Modelled from the spec: `OrderBook::best_bid`, whose body is not among the sources:
the price of the highest-priced bid level, the first of `bids`, and no value when there
is no bid. -/
def best_bid (b : OrderBook) : Option Price := b.bids.head?.map Prod.fst

/-- Modelled from the spec: `OrderBook::best_ask`, whose body is not among the sources:
the price of the lowest-priced ask level, the first of `asks`, and no value when there is
no ask. -/
def best_ask (b : OrderBook) : Option Price := b.asks.head?.map Prod.fst

/-- Modelled from the spec: `OrderBook::mid`, whose body is not among the sources: the
arithmetic midpoint of the best bid and the best ask when both sides are non-empty, no
value otherwise. -/
def mid (b : OrderBook) : Option ℚ :=
  match best_bid b, best_ask b with
  | some x, some y => some (((x : ℚ) + (y : ℚ)) / 2)
  | _, _ => none

/-- The books reachable from the empty book by calls of `cancel` and by calls of
`add_limit` whose order has a quantity above zero. -/
inductive ReachablePos : OrderBook → Prop where
  | empty : ReachablePos OrderBook.empty
  | add_limit (b : OrderBook) (o : Order) :
      ReachablePos b → 0 < o.qty → ReachablePos (add_limit b o).2
  | cancel (b : OrderBook) (id : OrderId) : ReachablePos b → ReachablePos (cancel b id)

/-! ## The matching engine -/

/-- The side an incoming order trades against. -/
def Side.opposite : Side → Side
  | Side.Buy => Side.Sell
  | Side.Sell => Side.Buy

/-- The book with the price map of side `s` replaced by `m`. -/
def OrderBook.setLevels (b : OrderBook) (s : Side) (m : SMap Price LevelQueue) : OrderBook :=
  match s with
  | Side.Buy => { b with bids := m }
  | Side.Sell => { b with asks := m }

/-- Modelled from the spec: the `Fill` record of `matching_engine.hpp`, which is not among
the sources: taker id, maker id, side of the taker, execution price, executed quantity
and the time stamp of the submission (the fields `main.cpp` prints). -/
structure Fill where
  taker_id : OrderId
  maker_id : OrderId
  taker_side : Side
  price : Price
  qty : Qty
  ts : TimePoint
deriving DecidableEq

/-- Modelled from the spec: "decrement [the maker's] remaining quantity", the maker
being the oldest order of its level, the front of the queue. -/
def fillFront (exec : Qty) : LevelQueue → LevelQueue
  | [] => []
  | maker :: rest => { maker with qty := maker.qty - exec } :: rest

/-- Modelled from the spec: the marketability test of the matching loop, "a Buy's price
≥ opposite best ask, or a Sell's price ≤ opposite best bid"; a market order (no limit)
"matches at any available opposite price". -/
def marketable (side : Side) (limit : Option Price) (px : Price) : Bool :=
  match limit, side with
  | none, _ => true
  | some p, Side.Buy => decide (p ≥ px)
  | some p, Side.Sell => decide (p ≤ px)

/-- Modelled from the spec: one turn of the matching loop of `MatchingEngine`, which is
not among the sources.  While quantity remains and the opposite side is non-empty and
marketable: take the best-priced opposite level and its oldest order, execute
`min(taker remaining, maker remaining)` at the maker's resting price, decrement both, and
remove the maker "exactly as cancel would" when its remaining quantity reaches zero.
`none` when the loop condition fails. -/
def match_step (b : OrderBook) (taker_id : OrderId) (side : Side) (limit : Option Price)
    (ts : TimePoint) (remaining : Qty) : Option (Fill × OrderBook × Qty) :=
  if remaining ≤ 0 then none
  else
    match b.levels side.opposite with
    | [] => none
    | (px, q) :: _ =>
      if marketable side limit px then
        match q with
        | [] => none
        | maker :: _ =>
          let exec := min remaining maker.qty
          let b1 := b.setLevels side.opposite
            (SMap.modify (b.levels side.opposite) px (fillFront exec))
          let b2 := if maker.qty - exec = 0 then cancel b1 maker.id else b1
          some (⟨taker_id, maker.id, side, maker.limit_price, exec, ts⟩, b2, remaining - exec)
      else none

/-- Modelled from the spec: the matching loop, at most `fuel` turns of `match_step`: the
fills in the order generated, the book and the taker's remaining quantity at the end. -/
def match_loop (taker_id : OrderId) (side : Side) (limit : Option Price) (ts : TimePoint) :
    Nat → OrderBook → Qty → List Fill × OrderBook × Qty
  | 0, b, remaining => ([], b, remaining)
  | fuel + 1, b, remaining =>
    match match_step b taker_id side limit ts remaining with
    | none => ([], b, remaining)
    | some (f, b1, r1) =>
      let rest := match_loop taker_id side limit ts fuel b1 r1
      (f :: rest.1, rest.2.1, rest.2.2)

/-- Modelled from the spec: how a submission to the engine ends: accepted, refused with
the invalid-order error of the spec's error table, or the `add_limit` of the remainder
threw. -/
inductive SubmitOutcome where
  | ok
  | invalid_order
  | rest_threw (e : BookError)
deriving DecidableEq

/-- Modelled from the spec: what a submission gives back, the sequence of fills, with the
book it leaves. -/
structure SubmitResult where
  outcome : SubmitOutcome
  fills : List Fill
  book : OrderBook
deriving DecidableEq

/-- Modelled from the spec: the id the engine gives the taker's order.  The engine is not
among the sources and `submit_limit(side, price, quantity, timestamp)` takes no id; the
spec asks that an order's identifier be "unique" and "never reused while live" and that
the remainder rest "as a new resting order", so the engine's number is one not in the
index: here the one above the largest id of the index. -/
def next_taker_id (b : OrderBook) : OrderId :=
  (b.index.map Prod.fst).foldr max 0 + 1

/-- Modelled from the spec: the body of `MatchingEngine::submit_limit`, which is not among
the sources, for a taker numbered `taker_id`.  A non-positive quantity or price is refused
with no mutation; else the matching loop runs (one turn per order resting on the opposite
side is enough) and a remainder above zero is rested on the taker's side with
`add_limit`. -/
def submit_limit_as (b : OrderBook) (taker_id : OrderId) (side : Side) (price : Price)
    (quantity : Qty) (ts : TimePoint) : SubmitResult :=
  if quantity ≤ 0 ∨ price ≤ 0 then ⟨SubmitOutcome.invalid_order, [], b⟩
  else
    let r := match_loop taker_id side (some price) ts
      (restingCount (b.levels side.opposite)) b quantity
    if 0 < r.2.2 then
      let a := add_limit r.2.1
        { id := taker_id, side := side, type := OrdType.Limit, limit_price := price,
          qty := r.2.2, ts := ts }
      match a.1 with
      | Outcome.ok => ⟨SubmitOutcome.ok, r.1, a.2⟩
      | Outcome.threw e => ⟨SubmitOutcome.rest_threw e, r.1, a.2⟩
    else ⟨SubmitOutcome.ok, r.1, r.2.1⟩

/-- Modelled from the spec: `MatchingEngine::submit_limit(side, price, quantity,
timestamp)` on the book `b`, which is not among the sources: the engine numbers the taker
with `next_taker_id` and matches, then rests the remainder. -/
def submit_limit (b : OrderBook) (side : Side) (price : Price) (quantity : Qty)
    (ts : TimePoint) : SubmitResult :=
  submit_limit_as b (next_taker_id b) side price quantity ts

/-- Modelled from the spec: `MatchingEngine::submit_market`, which is not among the
sources: the same loop with no marketability test, the unmatched remainder discarded. -/
def submit_market (b : OrderBook) (taker_id : OrderId) (side : Side)
    (quantity : Qty) (ts : TimePoint) : SubmitResult :=
  if quantity ≤ 0 then ⟨SubmitOutcome.invalid_order, [], b⟩
  else
    let r := match_loop taker_id side none ts
      (restingCount (b.levels side.opposite)) b quantity
    ⟨SubmitOutcome.ok, r.1, r.2.1⟩

/-- The orders resting on one side in priority order: levels best price first, within a
level oldest first. -/
def restingOrders (m : SMap Price LevelQueue) : List Order :=
  (m.map Prod.snd).flatten

/-- Price-then-time priority, as the spec words it: walking the makers in priority order
with the taker's remaining quantity `r`, each maker reached while quantity remains gives
one fill of `min(taker remaining, maker remaining)` at the maker's resting price. -/
def priorityFills (taker_id : OrderId) (side : Side) (ts : TimePoint) :
    Qty → List Order → List Fill
  | _, [] => []
  | r, maker :: rest =>
    if r ≤ 0 then []
    else ⟨taker_id, maker.id, side, maker.limit_price, min r maker.qty, ts⟩
      :: priorityFills taker_id side ts (r - min r maker.qty) rest

/-- The makers an incoming order may trade with, in priority order: the resting orders of
the opposite side up to the first one whose price is not marketable. -/
def marketableMakers (b : OrderBook) (side : Side) (limit : Option Price) : List Order :=
  (restingOrders (b.levels side.opposite)).takeWhile
    (fun maker => marketable side limit maker.limit_price)

/-- What price-then-time priority leaves of the makers: walking them in priority order
with the taker's remaining quantity `r`, a marketable maker of quantity at most `r` is
consumed whole, the first marketable maker of larger quantity is reduced by `r`, and
every maker behind it stays. -/
def consumeMakers (side : Side) (limit : Option Price) : Qty → List Order → List Order
  | _, [] => []
  | r, maker :: rest =>
    if r ≤ 0 ∨ marketable side limit maker.limit_price = false then maker :: rest
    else if maker.qty ≤ r then consumeMakers side limit (r - maker.qty) rest
    else { maker with qty := maker.qty - r } :: rest

/-- The `make_order` helper of `main.cpp`. -/
def make_order (id : OrderId) (side : Side) (px : Price) (qty : Qty) (ts : TimePoint) : Order :=
  { id := id, side := side, type := OrdType.Limit, limit_price := px, qty := qty, ts := ts }

/-- The book of `main.cpp` after its six adds (scenario 1). -/
def scenario1 : OrderBook :=
  let b0 := OrderBook.empty
  let b1 := (add_limit b0 (make_order 101 Side.Buy 100 5 10)).2
  let b2 := (add_limit b1 (make_order 102 Side.Buy 100 3 20)).2
  let b3 := (add_limit b2 (make_order 103 Side.Buy 99 7 30)).2
  let b4 := (add_limit b3 (make_order 201 Side.Sell 102 4 15)).2
  let b5 := (add_limit b4 (make_order 202 Side.Sell 103 6 25)).2
  (add_limit b5 (make_order 203 Side.Sell 102 2 35)).2


/-- The duplicate of order 101 that `main.cpp` submits to see the exception. -/
def duplicate101 : Order := make_order 101 Side.Buy 100 1 50

/-- A market order carrying the id of the resting order 101. -/
def market101 : Order :=
  { id := 101, side := Side.Sell, type := OrdType.Market, limit_price := 0, qty := 4, ts := 60 }

/-- The sixth order of scenario 1, Sell 2@102 with id 203. -/
def order203 : Order := make_order 203 Side.Sell 102 2 35

/-- The book of scenario 1 before its sixth add. -/
def scenario1_five : OrderBook :=
  let b0 := OrderBook.empty
  let b1 := (add_limit b0 (make_order 101 Side.Buy 100 5 10)).2
  let b2 := (add_limit b1 (make_order 102 Side.Buy 100 3 20)).2
  let b3 := (add_limit b2 (make_order 103 Side.Buy 99 7 30)).2
  let b4 := (add_limit b3 (make_order 201 Side.Sell 102 4 15)).2
  (add_limit b4 (make_order 202 Side.Sell 103 6 25)).2

/-- The book of `main.cpp` before its last cancel: scenario 1 after `cancel(102)`,
`cancel(201)` and the add of Sell 2@105 with id 300. -/
def book300 : OrderBook :=
  (add_limit (cancel (cancel scenario1 102) 201) (make_order 300 Side.Sell 105 2 100)).2

/-- A Buy at 102 with id 400, priced at the lowest ask of scenario 1. -/
def crossingBuy : Order := make_order 400 Side.Buy 102 9 70

/-- The book of scenario 2: scenario 1 after `cancel(102)` and `cancel(201)`. -/
def scenario2 : OrderBook := cancel (cancel scenario1 102) 201

/-- A Limit order Buy 0@100 with id 7. -/
def zeroQtyOrder : Order := make_order 7 Side.Buy 100 0 10

/-- The seeded book of scenario 3: Sell 5@101, Sell 3@102, Buy 4@99, Buy 6@100 on a
fresh book, with the ids 1 to 4 of `main.cpp`. -/
def scenario3 : OrderBook :=
  let b0 := OrderBook.empty
  let b1 := (add_limit b0 (make_order 1 Side.Sell 101 5 10)).2
  let b2 := (add_limit b1 (make_order 2 Side.Sell 102 3 20)).2
  let b3 := (add_limit b2 (make_order 3 Side.Buy 99 4 30)).2
  (add_limit b3 (make_order 4 Side.Buy 100 6 40)).2

/-- The book after scenario 3, which is also the seeded book after the cancels of its two
asks: bids 99 and 100 as seeded, no ask. -/
def scenario3_after : OrderBook := cancel (cancel scenario3 1) 2

/-! ## Lemmas on ordered maps -/

namespace SMap

variable {κ ν : Type} [DecidableEq κ]

theorem find_eq_none_iff (m : SMap κ ν) (k : κ) :
    find m k = none ↔ ∀ e ∈ m, e.1 ≠ k := by
  induction m with
  | nil => simp [find]
  | cons a rest ih =>
    obtain ⟨a1, a2⟩ := a
    by_cases h : a1 = k
    · simp [find, h]
    · simp [find, h, ih]

theorem find_mem (m : SMap κ ν) (k : κ) (v : ν) (h : find m k = some v) : (k, v) ∈ m := by
  induction m with
  | nil => simp [find] at h
  | cons a rest ih =>
    obtain ⟨a1, a2⟩ := a
    by_cases hk : a1 = k
    · simp [find, hk] at h
      simp [hk, h]
    · simp [find, hk] at h
      exact List.mem_cons_of_mem _ (ih h)

theorem find_orderedInsert (before : κ → κ → Prop) [DecidableRel before]
    (m : SMap κ ν) (k j : κ) (v : ν) (h : find m k = none) :
    find (orderedInsert before m k v) j = if j = k then some v else find m j := by
  induction m with
  | nil =>
    by_cases hj : j = k
    · simp [orderedInsert, find, hj]
    · have hj2 : ¬ k = j := fun e => hj e.symm
      simp [orderedInsert, find, hj, hj2]
  | cons a rest ih =>
    obtain ⟨a1, a2⟩ := a
    have ha : ¬ a1 = k := by
      intro e
      simp [find, e] at h
    have hr : find rest k = none := by
      simpa [find, ha] using h
    by_cases hb : before k a1
    · by_cases hj : j = k
      · simp [orderedInsert, hb, find, hj]
      · have hj2 : ¬ k = j := fun e => hj e.symm
        simp [orderedInsert, hb, find, hj, hj2]
    · by_cases hj : j = k
      · subst hj
        simp [orderedInsert, hb, find, ha, ih hr]
      · simp [orderedInsert, hb, find, ih hr, hj]

theorem find_insertIfAbsent (before : κ → κ → Prop) [DecidableRel before]
    (m : SMap κ ν) (k j : κ) (v : ν) :
    find (insertIfAbsent before m k v) j
      = if j = k then some ((find m k).getD v) else find m j := by
  unfold insertIfAbsent
  cases h : find m k with
  | none => simp [find_orderedInsert before m k j v h]
  | some w =>
    by_cases hj : j = k
    · simp [hj, h]
    · simp [hj]

theorem find_modify (m : SMap κ ν) (k j : κ) (f : ν → ν) :
    find (modify m k f) j = if j = k then (find m k).map f else find m j := by
  induction m with
  | nil => simp [modify, find]
  | cons a rest ih =>
    obtain ⟨a1, a2⟩ := a
    by_cases ha : a1 = k
    · by_cases hj : j = k
      · simp [modify, find, ha, hj]
      · have hj2 : ¬ k = j := fun e => hj e.symm
        simp [modify, find, ha, hj, hj2]
    · by_cases hj : j = k
      · subst hj
        simp [modify, find, ha, ih]
      · simp [modify, find, ha, hj, ih]

theorem find_erase (m : SMap κ ν) (k j : κ) :
    find (erase m k) j = if j = k then none else find m j := by
  induction m with
  | nil => simp [erase, find]
  | cons a rest ih =>
    obtain ⟨a1, a2⟩ := a
    have ih2 : find (List.filter (fun e => decide (e.1 ≠ k)) rest) j
        = if j = k then none else find rest j := ih
    by_cases ha : a1 = k
    · by_cases hj : j = k
      · simp [erase, List.filter_cons, ha, hj] at ih2 ⊢
        simpa [hj] using ih2
      · have hj2 : ¬ k = j := fun e => hj e.symm
        simp [erase, List.filter_cons, ha, find, hj, hj2] at ih2 ⊢
        simpa [hj] using ih2
    · by_cases hj : j = k
      · subst hj
        simp [erase, List.filter_cons, ha, find] at ih2 ⊢
        simpa using ih2
      · simp [erase, List.filter_cons, ha, find, hj] at ih2 ⊢
        rw [ih2]

theorem mem_orderedInsert (before : κ → κ → Prop) [DecidableRel before]
    (m : SMap κ ν) (k : κ) (v : ν) (x : κ × ν) :
    x ∈ orderedInsert before m k v ↔ x = (k, v) ∨ x ∈ m := by
  induction m with
  | nil => simp [orderedInsert]
  | cons a rest ih =>
    obtain ⟨a1, a2⟩ := a
    by_cases hb : before k a1
    · simp [orderedInsert, hb]
    · simp [orderedInsert, hb, ih]
      tauto

theorem key_of_mem_modify (m : SMap κ ν) (k : κ) (f : ν → ν) (x : κ × ν)
    (h : x ∈ modify m k f) : ∃ y ∈ m, y.1 = x.1 := by
  induction m with
  | nil => simp [modify] at h
  | cons a rest ih =>
    obtain ⟨a1, a2⟩ := a
    by_cases ha : a1 = k
    · simp [modify, ha] at h
      rcases h with h | h
      · exact ⟨(a1, a2), by simp, by simp [h, ha]⟩
      · exact ⟨x, by simp [h], rfl⟩
    · simp [modify, ha] at h
      rcases h with h | h
      · exact ⟨(a1, a2), by simp, by simp [h]⟩
      · obtain ⟨y, hy, hyx⟩ := ih h
        exact ⟨y, List.mem_cons_of_mem _ hy, hyx⟩

theorem ordered_orderedInsert (before : κ → κ → Prop) [DecidableRel before]
    [IsStrictTotalOrder κ before] (m : SMap κ ν) (k : κ) (v : ν)
    (hm : Ordered before m) (hk : find m k = none) :
    Ordered before (orderedInsert before m k v) := by
  induction m with
  | nil => simp [orderedInsert, Ordered]
  | cons a rest ih =>
    obtain ⟨a1, a2⟩ := a
    have ha : ¬ a1 = k := by
      intro e
      simp [find, e] at hk
    have hr : find rest k = none := by
      simpa [find, ha] using hk
    unfold Ordered at hm ih ⊢
    rw [List.pairwise_cons] at hm
    by_cases hb : before k a1
    · simp only [orderedInsert, hb, if_true]
      rw [List.pairwise_cons, List.pairwise_cons]
      refine ⟨?_, hm.1, hm.2⟩
      intro x hx
      rcases List.mem_cons.1 hx with hx | hx
      · simpa [hx] using hb
      · exact IsTrans.trans _ _ _ hb (hm.1 x hx)
    · simp only [orderedInsert, hb, if_false]
      rw [List.pairwise_cons]
      refine ⟨?_, ih hm.2 hr⟩
      intro x hx
      rcases (mem_orderedInsert before rest k v x).1 hx with hx | hx
      · subst hx
        rcases trichotomous (r := before) a1 k with h | h | h
        · exact h
        · exact absurd h ha
        · exact absurd h hb
      · exact hm.1 x hx

theorem ordered_modify (before : κ → κ → Prop) (m : SMap κ ν) (k : κ) (f : ν → ν)
    (hm : Ordered before m) : Ordered before (modify m k f) := by
  induction m with
  | nil => simp [modify, Ordered]
  | cons a rest ih =>
    obtain ⟨a1, a2⟩ := a
    unfold Ordered at hm ih ⊢
    rw [List.pairwise_cons] at hm
    by_cases ha : a1 = k
    · simp only [modify, ha, if_true]
      rw [List.pairwise_cons]
      exact ⟨fun x hx => by simpa [ha] using hm.1 x hx, hm.2⟩
    · simp only [modify, ha, if_false]
      rw [List.pairwise_cons]
      refine ⟨?_, ih hm.2⟩
      intro x hx
      obtain ⟨y, hy, hyx⟩ := key_of_mem_modify rest k f x hx
      simpa [hyx] using hm.1 y hy

theorem ordered_erase (before : κ → κ → Prop) (m : SMap κ ν) (k : κ)
    (hm : Ordered before m) : Ordered before (erase m k) :=
  List.Pairwise.filter _ hm

theorem ordered_insertIfAbsent (before : κ → κ → Prop) [DecidableRel before]
    [IsStrictTotalOrder κ before] (m : SMap κ ν) (k : κ) (v : ν)
    (hm : Ordered before m) : Ordered before (insertIfAbsent before m k v) := by
  unfold insertIfAbsent
  cases h : find m k with
  | none => exact ordered_orderedInsert before m k v hm h
  | some w => exact hm

theorem find_of_mem (before : κ → κ → Prop) [IsIrrefl κ before] (m : SMap κ ν) (k : κ) (v : ν)
    (hm : Ordered before m) (h : (k, v) ∈ m) : find m k = some v := by
  induction m with
  | nil => simp at h
  | cons a rest ih =>
    obtain ⟨a1, a2⟩ := a
    unfold Ordered at hm ih
    rw [List.pairwise_cons] at hm
    rcases List.mem_cons.1 h with h | h
    · have h1 : k = a1 := congrArg Prod.fst h
      have h2 : v = a2 := congrArg Prod.snd h
      simp [find, h1, h2]
    · have hb : before a1 k := hm.1 (k, v) h
      have hne : ¬ a1 = k := by
        intro e
        rw [e] at hb
        exact irrefl k hb
      simp [find, hne, ih hm.2 h]

theorem erase_of_find_none (m : SMap κ ν) (k : κ) (h : find m k = none) : erase m k = m := by
  unfold erase
  rw [List.filter_eq_self]
  intro e he
  simpa using (find_eq_none_iff m k).1 h e he

theorem find_none_of_before (before : κ → κ → Prop) [IsIrrefl κ before] (m : SMap κ ν) (k : κ)
    (h : ∀ x ∈ m, before k x.1) : find m k = none := by
  rw [find_eq_none_iff]
  intro e he hek
  have hb := h e he
  rw [hek] at hb
  exact irrefl k hb

theorem length_orderedInsert (before : κ → κ → Prop) [DecidableRel before]
    (m : SMap κ ν) (k : κ) (v : ν) :
    (orderedInsert before m k v).length = m.length + 1 := by
  induction m with
  | nil => simp [orderedInsert]
  | cons a rest ih =>
    obtain ⟨a1, a2⟩ := a
    by_cases hb : before k a1
    · simp [orderedInsert, hb]
    · simp [orderedInsert, hb, ih]

theorem length_modify (m : SMap κ ν) (k : κ) (f : ν → ν) :
    (modify m k f).length = m.length := by
  induction m with
  | nil => simp [modify]
  | cons a rest ih =>
    obtain ⟨a1, a2⟩ := a
    by_cases ha : a1 = k
    · simp [modify, ha]
    · simp [modify, ha, ih]

theorem length_erase (before : κ → κ → Prop) [IsIrrefl κ before] (m : SMap κ ν) (k : κ) (v : ν)
    (hm : Ordered before m) (h : find m k = some v) :
    (erase m k).length + 1 = m.length := by
  induction m with
  | nil => simp [find] at h
  | cons a rest ih =>
    obtain ⟨a1, a2⟩ := a
    unfold Ordered at hm ih
    rw [List.pairwise_cons] at hm
    by_cases ha : a1 = k
    · have hr : find rest k = none :=
        find_none_of_before before rest k (fun x hx => by simpa [ha] using hm.1 x hx)
      have he : erase ((a1, a2) :: rest) k = erase rest k := by
        simp [erase, List.filter_cons, ha]
      rw [he, erase_of_find_none rest k hr]
      simp
    · have hr : find rest k = some v := by simpa [find, ha] using h
      have he : erase ((a1, a2) :: rest) k = (a1, a2) :: erase rest k := by
        simp [erase, List.filter_cons, ha]
      rw [he]
      simp [ih hm.2 hr]

end SMap

/-! ## Lemmas on the book operations -/

theorem restingCount_orderedInsert (before : Price → Price → Prop) [DecidableRel before]
    (m : SMap Price LevelQueue) (k : Price) (v : LevelQueue) :
    restingCount (SMap.orderedInsert before m k v) = restingCount m + v.length := by
  induction m with
  | nil => simp [SMap.orderedInsert, restingCount]
  | cons a rest ih =>
    obtain ⟨a1, a2⟩ := a
    by_cases hb : before k a1
    · simp [SMap.orderedInsert, hb, restingCount]
      omega
    · simp only [restingCount] at ih
      simp [SMap.orderedInsert, hb, restingCount, ih]
      omega

theorem restingCount_modify (m : SMap Price LevelQueue) (k : Price)
    (f : LevelQueue → LevelQueue) (q : LevelQueue) (h : SMap.find m k = some q) :
    restingCount (SMap.modify m k f) + q.length = restingCount m + (f q).length := by
  induction m with
  | nil => simp [SMap.find] at h
  | cons a rest ih =>
    obtain ⟨a1, a2⟩ := a
    by_cases ha : a1 = k
    · have hq : a2 = q := by simpa [SMap.find, ha] using h
      simp [SMap.modify, ha, restingCount, hq]
      omega
    · have hr : SMap.find rest k = some q := by simpa [SMap.find, ha] using h
      have := ih hr
      simp only [restingCount] at this
      simp [SMap.modify, ha, restingCount]
      omega

theorem restingCount_erase (before : Price → Price → Prop) [IsIrrefl Price before]
    (m : SMap Price LevelQueue) (k : Price) (q : LevelQueue)
    (hm : SMap.Ordered before m) (h : SMap.find m k = some q) :
    restingCount (SMap.erase m k) + q.length = restingCount m := by
  induction m with
  | nil => simp [SMap.find] at h
  | cons a rest ih =>
    obtain ⟨a1, a2⟩ := a
    unfold SMap.Ordered at hm ih
    rw [List.pairwise_cons] at hm
    by_cases ha : a1 = k
    · have hq : a2 = q := by simpa [SMap.find, ha] using h
      have hr : SMap.find rest k = none :=
        SMap.find_none_of_before before rest k (fun x hx => by simpa [ha] using hm.1 x hx)
      have he : SMap.erase ((a1, a2) :: rest) k = SMap.erase rest k := by
        simp [SMap.erase, List.filter_cons, ha]
      rw [he, SMap.erase_of_find_none rest k hr]
      simp [restingCount, hq]
      omega
    · have hr : SMap.find rest k = some q := by simpa [SMap.find, ha] using h
      have he : SMap.erase ((a1, a2) :: rest) k = (a1, a2) :: SMap.erase rest k := by
        simp [SMap.erase, List.filter_cons, ha]
      have := ih hm.2 hr
      simp only [restingCount] at this
      rw [he]
      simp [restingCount]
      omega

theorem find_pushLevel (before : Price → Price → Prop) [DecidableRel before]
    (m : SMap Price LevelQueue) (px j : Price) (o : Order) :
    SMap.find (pushLevel before m px o) j
      = if j = px then some ((SMap.find m px).getD [] ++ [o]) else SMap.find m j := by
  unfold pushLevel
  rw [SMap.find_modify, SMap.find_insertIfAbsent]
  by_cases hj : j = px
  · simp [hj]
  · simp [hj, SMap.find_insertIfAbsent]

theorem ordered_pushLevel (before : Price → Price → Prop) [DecidableRel before]
    [IsStrictTotalOrder Price before] (m : SMap Price LevelQueue) (px : Price) (o : Order)
    (hm : SMap.Ordered before m) : SMap.Ordered before (pushLevel before m px o) :=
  SMap.ordered_modify before _ px _ (SMap.ordered_insertIfAbsent before m px [] hm)

theorem restingCount_pushLevel (before : Price → Price → Prop) [DecidableRel before]
    (m : SMap Price LevelQueue) (px : Price) (o : Order) :
    restingCount (pushLevel before m px o) = restingCount m + 1 := by
  have hf := SMap.find_insertIfAbsent before m px px ([] : LevelQueue)
  simp only [if_true] at hf
  have h := restingCount_modify (SMap.insertIfAbsent before m px []) px
    (fun q => q ++ [o]) _ hf
  unfold pushLevel
  cases hm : SMap.find m px with
  | none =>
    have hi : SMap.insertIfAbsent before m px ([] : LevelQueue)
        = SMap.orderedInsert before m px [] := by
      simp [SMap.insertIfAbsent, hm]
    rw [hi] at h ⊢
    rw [restingCount_orderedInsert] at h
    simp [hm] at h
    omega
  | some q =>
    have hi : SMap.insertIfAbsent before m px ([] : LevelQueue) = m := by
      simp [SMap.insertIfAbsent, hm]
    rw [hi] at h ⊢
    simp [hm] at h
    omega

theorem add_limit_reject (b : OrderBook) (o : Order)
    (h : o.type ≠ OrdType.Limit ∨ (SMap.find b.index o.id).isSome) : (add_limit b o).2 = b := by
  unfold add_limit
  by_cases h1 : o.type = OrdType.Limit
  · rcases h with h | h
    · exact absurd h1 h
    · simp [h1, h]
  · simp [h1]

theorem add_limit_buy (b : OrderBook) (o : Order) (h1 : o.type = OrdType.Limit)
    (h2 : SMap.find b.index o.id = none) (hs : o.side = Side.Buy) :
    add_limit b o = (Outcome.ok,
      { bids := pushLevel bidBefore b.bids o.limit_price o, asks := b.asks,
        index := SMap.insertIfAbsent idBefore b.index o.id
          ⟨Side.Buy, o.limit_price, (b.queue Side.Buy o.limit_price).length⟩ }) := by
  unfold add_limit
  simp [h1, h2, hs, find_pushLevel, OrderBook.queue, OrderBook.levels]

theorem add_limit_sell (b : OrderBook) (o : Order) (h1 : o.type = OrdType.Limit)
    (h2 : SMap.find b.index o.id = none) (hs : o.side = Side.Sell) :
    add_limit b o = (Outcome.ok,
      { bids := b.bids, asks := pushLevel askBefore b.asks o.limit_price o,
        index := SMap.insertIfAbsent idBefore b.index o.id
          ⟨Side.Sell, o.limit_price, (b.queue Side.Sell o.limit_price).length⟩ }) := by
  unfold add_limit
  simp [h1, h2, hs, find_pushLevel, OrderBook.queue, OrderBook.levels]

theorem find_levels_add_limit (b : OrderBook) (o : Order) (h1 : o.type = OrdType.Limit)
    (h2 : SMap.find b.index o.id = none) (s : Side) (j : Price) :
    SMap.find ((add_limit b o).2.levels s) j
      = if s = o.side ∧ j = o.limit_price then some (b.queue s j ++ [o])
        else SMap.find (b.levels s) j := by
  cases hs : o.side with
  | Buy =>
    rw [add_limit_buy b o h1 h2 hs]
    cases s with
    | Buy =>
      by_cases hj : j = o.limit_price
      · simp [OrderBook.levels, OrderBook.queue, find_pushLevel, hj]
      · simp [OrderBook.levels, OrderBook.queue, find_pushLevel, hj]
    | Sell => simp [OrderBook.levels]
  | Sell =>
    rw [add_limit_sell b o h1 h2 hs]
    cases s with
    | Buy => simp [OrderBook.levels]
    | Sell =>
      by_cases hj : j = o.limit_price
      · simp [OrderBook.levels, OrderBook.queue, find_pushLevel, hj]
      · simp [OrderBook.levels, OrderBook.queue, find_pushLevel, hj]

theorem find_index_add_limit (b : OrderBook) (o : Order) (h1 : o.type = OrdType.Limit)
    (h2 : SMap.find b.index o.id = none) (j : OrderId) :
    SMap.find (add_limit b o).2.index j
      = if j = o.id
        then some ⟨o.side, o.limit_price, (b.queue o.side o.limit_price).length⟩
        else SMap.find b.index j := by
  cases hs : o.side with
  | Buy =>
    rw [add_limit_buy b o h1 h2 hs]
    simp [SMap.find_insertIfAbsent, h2]
  | Sell =>
    rw [add_limit_sell b o h1 h2 hs]
    simp [SMap.find_insertIfAbsent, h2]

theorem inv_empty : Inv OrderBook.empty where
  bids_ordered := List.Pairwise.nil
  asks_ordered := List.Pairwise.nil
  index_ordered := List.Pairwise.nil
  nonempty := by
    intro s px q h
    cases s <;> simp [OrderBook.empty, OrderBook.levels, SMap.find] at h
  sound := by
    intro id e h
    simp [OrderBook.empty, SMap.find] at h
  complete := by
    intro s px q p o h
    cases s <;> simp [OrderBook.empty, OrderBook.levels, SMap.find] at h
  count := by simp [OrderBook.empty, restingCount]

theorem queue_of_find (b : OrderBook) (s : Side) (px : Price) (q : LevelQueue)
    (h : SMap.find (b.levels s) px = some q) : b.queue s px = q := by
  simp [OrderBook.queue, h]

theorem inv_add_limit_ok (b : OrderBook) (o : Order) (hb : Inv b)
    (h1 : o.type = OrdType.Limit) (h2 : SMap.find b.index o.id = none) :
    Inv (add_limit b o).2 where
  bids_ordered := by
    cases hs : o.side with
    | Buy =>
      rw [add_limit_buy b o h1 h2 hs]
      exact ordered_pushLevel bidBefore _ _ _ hb.bids_ordered
    | Sell =>
      rw [add_limit_sell b o h1 h2 hs]
      exact hb.bids_ordered
  asks_ordered := by
    cases hs : o.side with
    | Buy =>
      rw [add_limit_buy b o h1 h2 hs]
      exact hb.asks_ordered
    | Sell =>
      rw [add_limit_sell b o h1 h2 hs]
      exact ordered_pushLevel askBefore _ _ _ hb.asks_ordered
  index_ordered := by
    cases hs : o.side with
    | Buy =>
      rw [add_limit_buy b o h1 h2 hs]
      exact SMap.ordered_insertIfAbsent idBefore _ _ _ hb.index_ordered
    | Sell =>
      rw [add_limit_sell b o h1 h2 hs]
      exact SMap.ordered_insertIfAbsent idBefore _ _ _ hb.index_ordered
  nonempty := by
    intro s px q h
    rw [find_levels_add_limit b o h1 h2] at h
    by_cases hc : s = o.side ∧ px = o.limit_price
    · rw [if_pos hc] at h
      have hq : b.queue s px ++ [o] = q := Option.some.inj h
      rw [← hq]
      simp
    · rw [if_neg hc] at h
      exact hb.nonempty s px q h
  sound := by
    intro id e h
    rw [find_index_add_limit b o h1 h2] at h
    by_cases hid : id = o.id
    · rw [if_pos hid] at h
      have he : e = ⟨o.side, o.limit_price, (b.queue o.side o.limit_price).length⟩ :=
        (Option.some.inj h).symm
      subst he
      refine ⟨b.queue o.side o.limit_price ++ [o], o, ?_, ?_, hid.symm, rfl, rfl⟩
      · rw [find_levels_add_limit b o h1 h2]
        simp
      · simp
    · rw [if_neg hid] at h
      obtain ⟨q, o1, hq, hp, ho1, ho2, ho3⟩ := hb.sound id e h
      by_cases hc : e.side = o.side ∧ e.px = o.limit_price
      · refine ⟨q ++ [o], o1, ?_, ?_, ho1, ho2, ho3⟩
        · rw [find_levels_add_limit b o h1 h2, if_pos hc, queue_of_find b _ _ q hq]
        · have hlt : e.pos < q.length := (List.getElem?_eq_some.1 hp).1
          rw [List.getElem?_append_left hlt]
          exact hp
      · refine ⟨q, o1, ?_, hp, ho1, ho2, ho3⟩
        rw [find_levels_add_limit b o h1 h2, if_neg hc]
        exact hq
  complete := by
    intro s px q p o1 h hp
    rw [find_levels_add_limit b o h1 h2] at h
    rw [find_index_add_limit b o h1 h2]
    by_cases hc : s = o.side ∧ px = o.limit_price
    · rw [if_pos hc] at h
      have hq : b.queue s px ++ [o] = q := Option.some.inj h
      rw [← hq] at hp
      by_cases hlt : p < (b.queue s px).length
      · rw [List.getElem?_append_left hlt] at hp
        have hfind : SMap.find (b.levels s) px = some (b.queue s px) := by
          cases hf : SMap.find (b.levels s) px with
          | none => simp [OrderBook.queue, hf] at hlt
          | some q0 => simp [OrderBook.queue, hf]
        have hold := hb.complete s px _ p o1 hfind hp
        have hne : ¬ o1.id = o.id := by
          intro e
          rw [e, h2] at hold
          exact Option.noConfusion hold
        rw [if_neg hne]
        exact hold
      · rw [List.getElem?_append_right (Nat.le_of_not_lt hlt)] at hp
        have hp0 : p - (b.queue s px).length = 0 := by
          by_contra hne
          have : ([o] : List Order)[p - (b.queue s px).length]? = none := by
            apply List.getElem?_eq_none
            simp
            omega
          rw [this] at hp
          exact Option.noConfusion hp
        rw [hp0] at hp
        have ho : o = o1 := by simpa using hp
        subst ho
        have hpe : p = (b.queue s px).length := by omega
        simp [hc.1, hc.2, hpe]
    · rw [if_neg hc] at h
      have hold := hb.complete s px q p o1 h hp
      have hne : ¬ o1.id = o.id := by
        intro e
        rw [e, h2] at hold
        exact Option.noConfusion hold
      rw [if_neg hne]
      exact hold
  count := by
    have hlen : (SMap.insertIfAbsent idBefore b.index o.id
        (⟨o.side, o.limit_price, (b.queue o.side o.limit_price).length⟩ : IndexEntry)).length
        = b.index.length + 1 := by
      simp [SMap.insertIfAbsent, h2, SMap.length_orderedInsert]
    have hc := hb.count
    cases hs : o.side with
    | Buy =>
      rw [add_limit_buy b o h1 h2 hs]
      rw [hs] at hlen
      simp only []
      rw [hlen, restingCount_pushLevel]
      omega
    | Sell =>
      rw [add_limit_sell b o h1 h2 hs]
      rw [hs] at hlen
      simp only []
      rw [hlen, restingCount_pushLevel]
      omega

theorem inv_add_limit (b : OrderBook) (o : Order) (hb : Inv b) : Inv (add_limit b o).2 := by
  by_cases h1 : o.type = OrdType.Limit
  · cases h2 : SMap.find b.index o.id with
    | none => exact inv_add_limit_ok b o hb h1 h2
    | some e =>
      rw [add_limit_reject b o (Or.inr (by simp [h2]))]
      exact hb
  · rw [add_limit_reject b o (Or.inl h1)]
    exact hb

theorem length_reindexFrom (p : Nat) (l : List Order) (idx : SMap OrderId IndexEntry) :
    (reindexFrom p l idx).length = idx.length := by
  induction l generalizing p idx with
  | nil => simp [reindexFrom]
  | cons o rest ih => simp [reindexFrom, ih, SMap.length_modify]

theorem ordered_reindexFrom (p : Nat) (l : List Order) (idx : SMap OrderId IndexEntry)
    (h : SMap.Ordered idBefore idx) : SMap.Ordered idBefore (reindexFrom p l idx) := by
  induction l generalizing p idx with
  | nil => simpa [reindexFrom] using h
  | cons o rest ih =>
    simp only [reindexFrom]
    exact ih _ _ (SMap.ordered_modify idBefore idx o.id _ h)

theorem find_reindexFrom_other (p : Nat) (l : List Order) (idx : SMap OrderId IndexEntry)
    (j : OrderId) (h : ∀ o ∈ l, o.id ≠ j) :
    SMap.find (reindexFrom p l idx) j = SMap.find idx j := by
  induction l generalizing p idx with
  | nil => simp [reindexFrom]
  | cons o rest ih =>
    simp only [reindexFrom]
    rw [ih _ _ (fun x hx => h x (List.mem_cons_of_mem _ hx)), SMap.find_modify]
    have hne : ¬ j = o.id := fun e => h o (List.mem_cons_self _ _) e.symm
    simp [hne]

theorem find_reindexFrom_at (p : Nat) (l : List Order) (idx : SMap OrderId IndexEntry)
    (hinj : ∀ (i1 i2 : Nat) (o1 o2 : Order), l[i1]? = some o1 → l[i2]? = some o2 → o1.id = o2.id → i1 = i2)
    (i : Nat) (o : Order) (hi : l[i]? = some o) :
    SMap.find (reindexFrom p l idx) o.id
      = (SMap.find idx o.id).map (fun e => { e with pos := p + i }) := by
  induction l generalizing p idx i with
  | nil => simp at hi
  | cons o0 rest ih =>
    simp only [reindexFrom]
    cases i with
    | zero =>
      have ho : o0 = o := by simpa using hi
      subst ho
      have hnot : ∀ x ∈ rest, x.id ≠ o0.id := by
        intro x hx e
        obtain ⟨n, hn⟩ := List.getElem?_of_mem hx
        have := hinj (n + 1) 0 x o0 (by simpa using hn) (by simp) e
        omega
      rw [find_reindexFrom_other _ _ _ _ hnot, SMap.find_modify]
      simp
    | succ n =>
      have hn : rest[n]? = some o := by simpa using hi
      have hinj2 : ∀ (i1 i2 : Nat) (o1 o2 : Order), rest[i1]? = some o1 → rest[i2]? = some o2 →
          o1.id = o2.id → i1 = i2 := by
        intro i1 i2 o1 o2 e1 e2 e
        have := hinj (i1 + 1) (i2 + 1) o1 o2 (by simpa using e1) (by simpa using e2) e
        omega
      rw [ih (p + 1) _ hinj2 n hn, SMap.find_modify]
      have hne : ¬ o.id = o0.id := by
        intro e
        have := hinj (n + 1) 0 o o0 (by simpa using hn) (by simp) e
        omega
      have hadd : p + 1 + n = p + (n + 1) := by omega
      simp [hne, hadd]

theorem drop_eraseIdx (q : LevelQueue) (pos : Nat) :
    (q.eraseIdx pos).drop pos = q.drop (pos + 1) := by
  apply List.ext_getElem?
  intro n
  rw [List.getElem?_drop, List.getElem?_drop, List.getElem?_eraseIdx]
  have h : ¬ pos + n < pos := by omega
  rw [if_neg h]
  congr 1
  omega

theorem cancelIn_found (m : SMap Price LevelQueue) (index : SMap OrderId IndexEntry)
    (id : OrderId) (px : Price) (pos : Nat) (q : LevelQueue)
    (hq : SMap.find m px = some q) (hpos : pos < q.length) :
    cancelIn m index id px pos =
      (if q.eraseIdx pos = []
        then SMap.erase (SMap.modify m px (fun _ => q.eraseIdx pos)) px
        else SMap.modify m px (fun _ => q.eraseIdx pos),
       SMap.erase (reindexFrom pos (q.drop (pos + 1)) index) id) := by
  unfold cancelIn
  have h : ¬ pos ≥ q.length := by omega
  simp only [hq, h, if_false, drop_eraseIdx, List.isEmpty_iff]

theorem find_cancelIn (m : SMap Price LevelQueue) (index : SMap OrderId IndexEntry)
    (id : OrderId) (px : Price) (pos : Nat) (q : LevelQueue)
    (hq : SMap.find m px = some q) (hpos : pos < q.length) (j : Price) :
    SMap.find (cancelIn m index id px pos).1 j
      = if j = px then (if q.eraseIdx pos = [] then none else some (q.eraseIdx pos))
        else SMap.find m j := by
  rw [cancelIn_found m index id px pos q hq hpos]
  by_cases he : q.eraseIdx pos = []
  · by_cases hj : j = px
    · simp [he, hj, SMap.find_erase]
    · simp [he, hj, SMap.find_erase, SMap.find_modify]
  · by_cases hj : j = px
    · simp [he, hj, SMap.find_modify, hq]
    · simp [he, hj, SMap.find_modify]

theorem cancel_unknown (b : OrderBook) (id : OrderId) (h : SMap.find b.index id = none) :
    cancel b id = b := by
  simp [cancel, h]

theorem cancel_buy (b : OrderBook) (id : OrderId) (e : IndexEntry)
    (he : SMap.find b.index id = some e) (hs : e.side = Side.Buy) :
    cancel b id = { bids := (cancelIn b.bids b.index id e.px e.pos).1, asks := b.asks,
                    index := (cancelIn b.bids b.index id e.px e.pos).2 } := by
  simp [cancel, he, hs]

theorem cancel_sell (b : OrderBook) (id : OrderId) (e : IndexEntry)
    (he : SMap.find b.index id = some e) (hs : e.side = Side.Sell) :
    cancel b id = { bids := b.bids, asks := (cancelIn b.asks b.index id e.px e.pos).1,
                    index := (cancelIn b.asks b.index id e.px e.pos).2 } := by
  simp [cancel, he, hs]

theorem find_levels_cancel (b : OrderBook) (id : OrderId) (e : IndexEntry) (q : LevelQueue)
    (he : SMap.find b.index id = some e) (hq : SMap.find (b.levels e.side) e.px = some q)
    (hpos : e.pos < q.length) (s : Side) (j : Price) :
    SMap.find ((cancel b id).levels s) j
      = if s = e.side ∧ j = e.px
        then (if q.eraseIdx e.pos = [] then none else some (q.eraseIdx e.pos))
        else SMap.find (b.levels s) j := by
  cases hs : e.side with
  | Buy =>
    rw [hs] at hq
    rw [cancel_buy b id e he hs]
    cases s with
    | Buy =>
      simp only [OrderBook.levels] at hq ⊢
      rw [find_cancelIn b.bids b.index id e.px e.pos q hq hpos]
      simp
    | Sell => simp [OrderBook.levels]
  | Sell =>
    rw [hs] at hq
    rw [cancel_sell b id e he hs]
    cases s with
    | Buy => simp [OrderBook.levels]
    | Sell =>
      simp only [OrderBook.levels] at hq ⊢
      rw [find_cancelIn b.asks b.index id e.px e.pos q hq hpos]
      simp

theorem index_cancel (b : OrderBook) (id : OrderId) (e : IndexEntry) (q : LevelQueue)
    (he : SMap.find b.index id = some e) (hq : SMap.find (b.levels e.side) e.px = some q)
    (hpos : e.pos < q.length) :
    (cancel b id).index = SMap.erase (reindexFrom e.pos (q.drop (e.pos + 1)) b.index) id := by
  cases hs : e.side with
  | Buy =>
    rw [hs] at hq
    simp only [OrderBook.levels] at hq
    rw [cancel_buy b id e he hs, cancelIn_found b.bids b.index id e.px e.pos q hq hpos]
  | Sell =>
    rw [hs] at hq
    simp only [OrderBook.levels] at hq
    rw [cancel_sell b id e he hs, cancelIn_found b.asks b.index id e.px e.pos q hq hpos]

/-- Distinct places of one queue hold distinct ids. -/
theorem queue_ids_injective (b : OrderBook) (hb : Inv b) (s : Side) (px : Price)
    (q : LevelQueue) (hq : SMap.find (b.levels s) px = some q)
    (i1 i2 : Nat) (o1 o2 : Order) (h1 : q[i1]? = some o1) (h2 : q[i2]? = some o2)
    (hid : o1.id = o2.id) : i1 = i2 := by
  have e1 := hb.complete s px q i1 o1 hq h1
  have e2 := hb.complete s px q i2 o2 hq h2
  rw [hid, e2] at e1
  have := Option.some.inj e1
  exact (congrArg IndexEntry.pos this).symm

theorem find_index_cancel (b : OrderBook) (hb : Inv b) (id : OrderId) (e : IndexEntry)
    (he : SMap.find b.index id = some e) (j : OrderId) :
    SMap.find (cancel b id).index j
      = if j = id then none else (SMap.find b.index j).map (shifted e) := by
  obtain ⟨q, o, hq, hp, ho1, _, _⟩ := hb.sound id e he
  have hpos : e.pos < q.length := (List.getElem?_eq_some.1 hp).1
  rw [index_cancel b id e q he hq hpos, SMap.find_erase]
  by_cases hj : j = id
  · simp [hj]
  rw [if_neg hj, if_neg hj]
  have hinj : ∀ (i1 i2 : Nat) (o1 o2 : Order), (q.drop (e.pos + 1))[i1]? = some o1 →
      (q.drop (e.pos + 1))[i2]? = some o2 → o1.id = o2.id → i1 = i2 := by
    intro i1 i2 o1 o2 e1 e2 hid
    rw [List.getElem?_drop] at e1 e2
    have := queue_ids_injective b hb e.side e.px q hq _ _ o1 o2 e1 e2 hid
    omega
  by_cases hex : ∃ o1 ∈ q.drop (e.pos + 1), o1.id = j
  · obtain ⟨o1, hmem, hid⟩ := hex
    obtain ⟨n, hn⟩ := List.getElem?_of_mem hmem
    have hat := find_reindexFrom_at e.pos (q.drop (e.pos + 1)) b.index hinj n o1 hn
    rw [List.getElem?_drop] at hn
    have hold := hb.complete e.side e.px q _ o1 hq hn
    rw [hid] at hat hold
    rw [hat, hold]
    simp only [Option.map_some', shifted]
    have hc : True ∧ True ∧ e.pos < e.pos + 1 + n := ⟨trivial, trivial, by omega⟩
    rw [if_pos hc]
    have hn1 : e.pos + 1 + n - 1 = e.pos + n := by omega
    simp only [hn1]
  · have hnot : ∀ o1 ∈ q.drop (e.pos + 1), o1.id ≠ j := by
      intro o1 h1 h2
      exact hex ⟨o1, h1, h2⟩
    rw [find_reindexFrom_other _ _ _ _ hnot]
    cases hf : SMap.find b.index j with
    | none => simp
    | some e1 =>
      have hcond : ¬ (e1.side = e.side ∧ e1.px = e.px ∧ e.pos < e1.pos) := by
        rintro ⟨c1, c2, c3⟩
        obtain ⟨q1, o1, hq1, hp1, hid1, _, _⟩ := hb.sound j e1 hf
        rw [c1, c2, hq] at hq1
        have hqq : q = q1 := Option.some.inj hq1
        subst hqq
        apply hex
        refine ⟨o1, ?_, hid1⟩
        have hd : (q.drop (e.pos + 1))[e1.pos - (e.pos + 1)]? = some o1 := by
          rw [List.getElem?_drop]
          have : e.pos + 1 + (e1.pos - (e.pos + 1)) = e1.pos := by omega
          rw [this]
          exact hp1
        exact List.getElem?_mem hd
      simp only [Option.map_some', shifted]
      rw [if_neg hcond]

theorem ordered_cancelIn_levels (before : Price → Price → Prop)
    (m : SMap Price LevelQueue) (index : SMap OrderId IndexEntry)
    (id : OrderId) (px : Price) (pos : Nat) (hm : SMap.Ordered before m) :
    SMap.Ordered before (cancelIn m index id px pos).1 := by
  unfold cancelIn
  cases hq : SMap.find m px with
  | none => exact hm
  | some q =>
    by_cases hpos : pos ≥ q.length
    · simpa [hpos] using hm
    · simp only [hpos, if_false]
      by_cases he : (q.eraseIdx pos).isEmpty = true
      · simp only [he, if_true]
        exact SMap.ordered_erase before _ _ (SMap.ordered_modify before m px _ hm)
      · simp only [he]
        exact SMap.ordered_modify before m px _ hm

theorem ordered_cancelIn_index (m : SMap Price LevelQueue) (index : SMap OrderId IndexEntry)
    (id : OrderId) (px : Price) (pos : Nat) (hi : SMap.Ordered idBefore index) :
    SMap.Ordered idBefore (cancelIn m index id px pos).2 := by
  unfold cancelIn
  cases hq : SMap.find m px with
  | none => exact SMap.ordered_erase idBefore _ _ hi
  | some q =>
    by_cases hpos : pos ≥ q.length
    · simpa [hpos] using SMap.ordered_erase idBefore _ id hi
    · simp only [hpos, if_false]
      exact SMap.ordered_erase idBefore _ _ (ordered_reindexFrom _ _ _ hi)

theorem restingCount_cancelIn (before : Price → Price → Prop) [IsIrrefl Price before]
    (m : SMap Price LevelQueue) (index : SMap OrderId IndexEntry)
    (id : OrderId) (px : Price) (pos : Nat) (q : LevelQueue) (hm : SMap.Ordered before m)
    (hq : SMap.find m px = some q) (hpos : pos < q.length) :
    restingCount (cancelIn m index id px pos).1 + 1 = restingCount m := by
  rw [cancelIn_found m index id px pos q hq hpos]
  have h1 := restingCount_modify m px (fun _ => q.eraseIdx pos) q hq
  have hlen : (q.eraseIdx pos).length = q.length - 1 := by
    rw [List.length_eraseIdx, if_pos hpos]
  simp only [hlen] at h1
  by_cases he : q.eraseIdx pos = []
  · have hf : SMap.find (SMap.modify m px (fun _ => q.eraseIdx pos)) px
        = some (q.eraseIdx pos) := by
      simp [SMap.find_modify, hq]
    have h2 := restingCount_erase before _ px _ (SMap.ordered_modify before m px _ hm) hf
    simp only [if_pos he]
    have hz : q.length - 1 = 0 := by
      rw [← hlen, he]
      rfl
    rw [hlen] at h2
    omega
  · simp only [if_neg he]
    omega

theorem length_cancelIn_index (m : SMap Price LevelQueue) (index : SMap OrderId IndexEntry)
    (id : OrderId) (px : Price) (pos : Nat) (q : LevelQueue) (e : IndexEntry)
    (hi : SMap.Ordered idBefore index) (he : SMap.find index id = some e)
    (hq : SMap.find m px = some q) (hpos : pos < q.length)
    (hnot : ∀ o ∈ q.drop (pos + 1), o.id ≠ id) :
    (cancelIn m index id px pos).2.length + 1 = index.length := by
  rw [cancelIn_found m index id px pos q hq hpos]
  have hf : SMap.find (reindexFrom pos (q.drop (pos + 1)) index) id = some e := by
    rw [find_reindexFrom_other _ _ _ _ hnot, he]
  have := SMap.length_erase idBefore _ id e (ordered_reindexFrom _ _ _ hi) hf
  rw [length_reindexFrom] at this
  exact this

theorem ids_after_ne (b : OrderBook) (hb : Inv b) (s : Side) (px : Price) (q : LevelQueue)
    (hq : SMap.find (b.levels s) px = some q) (pos : Nat) (o : Order)
    (hp : q[pos]? = some o) : ∀ o1 ∈ q.drop (pos + 1), o1.id ≠ o.id := by
  intro o1 hmem hid
  obtain ⟨n, hn⟩ := List.getElem?_of_mem hmem
  rw [List.getElem?_drop] at hn
  have := queue_ids_injective b hb s px q hq _ _ o1 o hn hp hid
  omega

theorem inv_cancel (b : OrderBook) (id : OrderId) (hb : Inv b) : Inv (cancel b id) := by
  cases he : SMap.find b.index id with
  | none =>
    rw [cancel_unknown b id he]
    exact hb
  | some e =>
    obtain ⟨q, o, hq, hp, ho1, ho2, ho3⟩ := hb.sound id e he
    have hpos : e.pos < q.length := (List.getElem?_eq_some.1 hp).1
    have hL := find_levels_cancel b id e q he hq hpos
    have hI := find_index_cancel b hb id e he
    have hnot : ∀ o1 ∈ q.drop (e.pos + 1), o1.id ≠ id := by
      have := ids_after_ne b hb e.side e.px q hq e.pos o hp
      rw [ho1] at this
      exact this
    refine ⟨?_, ?_, ?_, ?_, ?_, ?_, ?_⟩
    · cases hs : e.side with
      | Buy =>
        rw [cancel_buy b id e he hs]
        exact ordered_cancelIn_levels bidBefore _ _ _ _ _ hb.bids_ordered
      | Sell =>
        rw [cancel_sell b id e he hs]
        exact hb.bids_ordered
    · cases hs : e.side with
      | Buy =>
        rw [cancel_buy b id e he hs]
        exact hb.asks_ordered
      | Sell =>
        rw [cancel_sell b id e he hs]
        exact ordered_cancelIn_levels askBefore _ _ _ _ _ hb.asks_ordered
    · cases hs : e.side with
      | Buy =>
        rw [cancel_buy b id e he hs]
        exact ordered_cancelIn_index _ _ _ _ _ hb.index_ordered
      | Sell =>
        rw [cancel_sell b id e he hs]
        exact ordered_cancelIn_index _ _ _ _ _ hb.index_ordered
    · intro s px1 q1 h
      rw [hL] at h
      by_cases hc : s = e.side ∧ px1 = e.px
      · rw [if_pos hc] at h
        by_cases hem : q.eraseIdx e.pos = []
        · rw [if_pos hem] at h
          exact Option.noConfusion h
        · rw [if_neg hem] at h
          rw [← Option.some.inj h]
          exact hem
      · rw [if_neg hc] at h
        exact hb.nonempty s px1 q1 h
    · intro j e2 h
      rw [hI] at h
      by_cases hj : j = id
      · rw [if_pos hj] at h
        exact Option.noConfusion h
      rw [if_neg hj] at h
      cases hf : SMap.find b.index j with
      | none =>
        rw [hf] at h
        exact Option.noConfusion h
      | some e1 =>
        rw [hf] at h
        have h2 : shifted e e1 = e2 := Option.some.inj h
        obtain ⟨q1, o1, hq1, hp1, hid1, hs1, hpx1⟩ := hb.sound j e1 hf
        by_cases hcond : e1.side = e.side ∧ e1.px = e.px ∧ e.pos < e1.pos
        · have hq1' := hq1
          rw [hcond.1, hcond.2.1, hq] at hq1'
          have hqq : q = q1 := Option.some.inj hq1'
          subst hqq
          have hget : (q.eraseIdx e.pos)[e1.pos - 1]? = some o1 := by
            rw [List.getElem?_eraseIdx]
            have h1 : ¬ e1.pos - 1 < e.pos := by omega
            have h3 : e1.pos - 1 + 1 = e1.pos := by omega
            rw [if_neg h1, h3]
            exact hp1
          have hem : ¬ q.eraseIdx e.pos = [] := by
            intro hnil
            rw [hnil] at hget
            simp at hget
          have he2 : e2 = { e1 with pos := e1.pos - 1 } := by
            rw [← h2]
            simp only [shifted]
            rw [if_pos hcond]
          subst he2
          refine ⟨q.eraseIdx e.pos, o1, ?_, hget, hid1, hs1, hpx1⟩
          rw [hL, if_pos ⟨hcond.1, hcond.2.1⟩, if_neg hem]
        · have he2 : e2 = e1 := by
            rw [← h2]
            simp only [shifted]
            rw [if_neg hcond]
          subst he2
          by_cases hlv : e2.side = e.side ∧ e2.px = e.px
          · have hq1' := hq1
            rw [hlv.1, hlv.2, hq] at hq1'
            have hqq : q = q1 := Option.some.inj hq1'
            subst hqq
            have hle : ¬ e.pos < e2.pos := fun c => hcond ⟨hlv.1, hlv.2, c⟩
            have hnepos : e2.pos ≠ e.pos := by
              intro c
              rw [c, hp] at hp1
              have hoo : o = o1 := Option.some.inj hp1
              rw [hoo] at ho1
              exact hj (hid1.symm.trans ho1)
            have hlt : e2.pos < e.pos := by omega
            have hget : (q.eraseIdx e.pos)[e2.pos]? = some o1 := by
              rw [List.getElem?_eraseIdx, if_pos hlt]
              exact hp1
            have hem : ¬ q.eraseIdx e.pos = [] := by
              intro hnil
              rw [hnil] at hget
              simp at hget
            refine ⟨q.eraseIdx e.pos, o1, ?_, hget, hid1, hs1, hpx1⟩
            rw [hL, if_pos hlv, if_neg hem]
          · refine ⟨q1, o1, ?_, hp1, hid1, hs1, hpx1⟩
            rw [hL, if_neg hlv]
            exact hq1
    · intro s px1 q1 p o1 h hp1
      rw [hL] at h
      rw [hI]
      by_cases hc : s = e.side ∧ px1 = e.px
      · rw [if_pos hc] at h
        by_cases hem : q.eraseIdx e.pos = []
        · rw [if_pos hem] at h
          exact Option.noConfusion h
        rw [if_neg hem] at h
        have hqq : q.eraseIdx e.pos = q1 := Option.some.inj h
        subst hqq
        rw [List.getElem?_eraseIdx] at hp1
        obtain ⟨hc1, hc2⟩ := hc
        subst hc1
        subst hc2
        by_cases hlt : p < e.pos
        · rw [if_pos hlt] at hp1
          have hold := hb.complete e.side e.px q p o1 hq hp1
          have hne : ¬ o1.id = id := by
            intro c
            rw [c, he] at hold
            have := congrArg IndexEntry.pos (Option.some.inj hold)
            simp at this
            omega
          rw [if_neg hne, hold]
          have hcond : ¬ (True ∧ True ∧ e.pos < p) := by
            intro c
            omega
          simp only [Option.map_some', shifted]
          rw [if_neg hcond]
        · rw [if_neg hlt] at hp1
          have hold := hb.complete e.side e.px q (p + 1) o1 hq hp1
          have hne : ¬ o1.id = id := by
            intro c
            rw [c, he] at hold
            have := congrArg IndexEntry.pos (Option.some.inj hold)
            simp at this
            omega
          rw [if_neg hne, hold]
          have hcond : True ∧ True ∧ e.pos < p + 1 := ⟨trivial, trivial, by omega⟩
          simp only [Option.map_some', shifted]
          rw [if_pos hcond]
          simp
      · rw [if_neg hc] at h
        have hold := hb.complete s px1 q1 p o1 h hp1
        have hne : ¬ o1.id = id := by
          intro c
          rw [c, he] at hold
          have h5 := Option.some.inj hold
          apply hc
          rw [h5]
          exact ⟨rfl, rfl⟩
        rw [if_neg hne, hold]
        have hcond : ¬ (s = e.side ∧ px1 = e.px ∧ e.pos < p) := fun c => hc ⟨c.1, c.2.1⟩
        simp only [Option.map_some', shifted]
        rw [if_neg hcond]
    · have hcount := hb.count
      cases hs : e.side with
      | Buy =>
        rw [hs] at hq
        simp only [OrderBook.levels] at hq
        rw [cancel_buy b id e he hs]
        have h1 := restingCount_cancelIn bidBefore b.bids b.index id e.px e.pos q
          hb.bids_ordered hq hpos
        have h2 := length_cancelIn_index b.bids b.index id e.px e.pos q e
          hb.index_ordered he hq hpos hnot
        simp only []
        omega
      | Sell =>
        rw [hs] at hq
        simp only [OrderBook.levels] at hq
        rw [cancel_sell b id e he hs]
        have h1 := restingCount_cancelIn askBefore b.asks b.index id e.px e.pos q
          hb.asks_ordered hq hpos
        have h2 := length_cancelIn_index b.asks b.index id e.px e.pos q e
          hb.index_ordered he hq hpos hnot
        simp only []
        omega

theorem reachable_inv (b : OrderBook) (h : Reachable b) : Inv b := by
  induction h with
  | empty => exact inv_empty
  | add_limit b o _ ih => exact inv_add_limit b o ih
  | cancel b id _ ih => exact inv_cancel b id ih

theorem find_cancelIn_index_self (m : SMap Price LevelQueue)
    (index : SMap OrderId IndexEntry) (id : OrderId) (px : Price) (pos : Nat) :
    SMap.find (cancelIn m index id px pos).2 id = none := by
  unfold cancelIn
  cases hq : SMap.find m px with
  | none => simp [SMap.find_erase]
  | some q =>
    by_cases hpos : pos ≥ q.length
    · simp [hpos, SMap.find_erase]
    · simp [hpos, SMap.find_erase]

theorem find_index_cancel_self (b : OrderBook) (id : OrderId) :
    SMap.find (cancel b id).index id = none := by
  cases he : SMap.find b.index id with
  | none => rw [cancel_unknown b id he, he]
  | some e =>
    cases hs : e.side with
    | Buy =>
      rw [cancel_buy b id e he hs]
      exact find_cancelIn_index_self _ _ _ _ _
    | Sell =>
      rw [cancel_sell b id e he hs]
      exact find_cancelIn_index_self _ _ _ _ _

theorem levels_ordered (b : OrderBook) (hb : Inv b) (s : Side) (x : Price × LevelQueue)
    (hx : x ∈ b.levels s) : SMap.find (b.levels s) x.1 = some x.2 := by
  cases s with
  | Buy => exact SMap.find_of_mem bidBefore b.bids x.1 x.2 hb.bids_ordered hx
  | Sell => exact SMap.find_of_mem askBefore b.asks x.1 x.2 hb.asks_ordered hx

theorem scenario1_reachable : Reachable scenario1 :=
  Reachable.add_limit _ _ (Reachable.add_limit _ _ (Reachable.add_limit _ _
    (Reachable.add_limit _ _ (Reachable.add_limit _ _ (Reachable.add_limit _ _
      Reachable.empty)))))

theorem book300_reachable : Reachable book300 :=
  Reachable.add_limit _ _ (Reachable.cancel _ _ (Reachable.cancel _ _ scenario1_reachable))

/-! ## The claims -/

/-- C1: a Limit order whose id is already in the index makes `add_limit` throw the
duplicate-id error, and bids, asks and the index are what they were before the call. -/
theorem add_limit_duplicate_id (b : OrderBook) (o : Order) (hk : o.type = OrdType.Limit)
    (hd : (SMap.find b.index o.id).isSome) :
    (add_limit b o).1 = Outcome.threw BookError.DuplicateOrderId ∧
    (add_limit b o).2.bids = b.bids ∧ (add_limit b o).2.asks = b.asks ∧
    (add_limit b o).2.index = b.index := by
  unfold add_limit
  simp [hk, hd]

theorem add_limit_duplicate_id_witness :
    duplicate101.type = OrdType.Limit ∧ (SMap.find scenario1.index duplicate101.id).isSome ∧
    (add_limit scenario1 duplicate101).1 = Outcome.threw BookError.DuplicateOrderId ∧
    (add_limit scenario1 duplicate101).2.bids = scenario1.bids ∧
    (add_limit scenario1 duplicate101).2.asks = scenario1.asks ∧
    (add_limit scenario1 duplicate101).2.index = scenario1.index :=
  ⟨by decide, by decide, add_limit_duplicate_id scenario1 duplicate101 (by decide) (by decide)⟩

/-- C2: an order whose kind is not Limit makes `add_limit` throw the invalid-kind error,
whether or not its id is in the index, and bids, asks and the index are what they were
before the call. -/
theorem add_limit_invalid_kind (b : OrderBook) (o : Order) (hk : o.type ≠ OrdType.Limit) :
    (add_limit b o).1 = Outcome.threw BookError.InvalidOrderKind ∧
    (add_limit b o).2.bids = b.bids ∧ (add_limit b o).2.asks = b.asks ∧
    (add_limit b o).2.index = b.index := by
  unfold add_limit
  simp [hk]

theorem add_limit_invalid_kind_witness :
    market101.type ≠ OrdType.Limit ∧ (SMap.find scenario1.index market101.id).isSome ∧
    (add_limit scenario1 market101).1 = Outcome.threw BookError.InvalidOrderKind ∧
    (add_limit scenario1 market101).2.bids = scenario1.bids ∧
    (add_limit scenario1 market101).2.asks = scenario1.asks ∧
    (add_limit scenario1 market101).2.index = scenario1.index :=
  ⟨by decide, by decide, add_limit_invalid_kind scenario1 market101 (by decide)⟩

/-- C3: a Limit order whose id is not in the index is accepted by `add_limit`; the queue
of its level `(o.side, o.limit_price)` becomes the previous queue (empty when the level
was absent) with `o` appended last, the index binds `o.id` to
`(o.side, o.limit_price, previous queue length)`, and every other id keeps its entry. -/
theorem add_limit_accepts (b : OrderBook) (o : Order) (hk : o.type = OrdType.Limit)
    (hn : SMap.find b.index o.id = none) :
    (add_limit b o).1 = Outcome.ok ∧
    SMap.find ((add_limit b o).2.levels o.side) o.limit_price
      = some (b.queue o.side o.limit_price ++ [o]) ∧
    SMap.find (add_limit b o).2.index o.id
      = some ⟨o.side, o.limit_price, (b.queue o.side o.limit_price).length⟩ ∧
    ∀ j, j ≠ o.id → SMap.find (add_limit b o).2.index j = SMap.find b.index j := by
  refine ⟨?_, ?_, ?_, ?_⟩
  · cases hs : o.side with
    | Buy => rw [add_limit_buy b o hk hn hs]
    | Sell => rw [add_limit_sell b o hk hn hs]
  · rw [find_levels_add_limit b o hk hn]
    simp
  · rw [find_index_add_limit b o hk hn]
    simp
  · intro j hj
    rw [find_index_add_limit b o hk hn, if_neg hj]

theorem add_limit_accepts_witness :
    order203.type = OrdType.Limit ∧ SMap.find scenario1_five.index order203.id = none ∧
    ((add_limit scenario1_five order203).1 = Outcome.ok ∧
     SMap.find ((add_limit scenario1_five order203).2.levels order203.side)
        order203.limit_price
       = some (scenario1_five.queue order203.side order203.limit_price ++ [order203]) ∧
     SMap.find (add_limit scenario1_five order203).2.index order203.id
       = some ⟨order203.side, order203.limit_price,
          (scenario1_five.queue order203.side order203.limit_price).length⟩ ∧
     ∀ j, j ≠ order203.id →
       SMap.find (add_limit scenario1_five order203).2.index j
         = SMap.find scenario1_five.index j) ∧
    (add_limit scenario1_five order203).2 = scenario1 ∧
    (scenario1.queue Side.Buy 100).map (fun o => o.id) = [101, 102] ∧
    (scenario1.queue Side.Sell 102).map (fun o => o.id) = [201, 203] :=
  ⟨by decide, by decide, add_limit_accepts scenario1_five order203 (by decide) (by decide),
    by decide, by decide, by decide⟩

/-- C4: on a reachable book, for an id the index binds to `(side, px, pos)`: the order
at `pos` of the level's queue is the one with that id; `cancel` makes the queue of the
level the previous queue with exactly the element at `pos` removed, the others in their
order; the id leaves the index; every order that was after `pos` in the queue has its
recorded position lowered by one; every order before `pos` keeps its recorded position. -/
theorem cancel_known (b : OrderBook) (hr : Reachable b) (id : OrderId) (e : IndexEntry)
    (he : SMap.find b.index id = some e) :
    (∃ o, (b.queue e.side e.px)[e.pos]? = some o ∧ o.id = id) ∧
    (cancel b id).queue e.side e.px = (b.queue e.side e.px).eraseIdx e.pos ∧
    SMap.find (cancel b id).index id = none ∧
    (∀ p o, e.pos < p → (b.queue e.side e.px)[p]? = some o →
      SMap.find b.index o.id = some ⟨e.side, e.px, p⟩ ∧
      SMap.find (cancel b id).index o.id = some ⟨e.side, e.px, p - 1⟩) ∧
    (∀ p o, p < e.pos → (b.queue e.side e.px)[p]? = some o →
      SMap.find b.index o.id = some ⟨e.side, e.px, p⟩ ∧
      SMap.find (cancel b id).index o.id = some ⟨e.side, e.px, p⟩) := by
  have hb := reachable_inv b hr
  obtain ⟨q, o, hq, hp, ho1, _, _⟩ := hb.sound id e he
  have hpos : e.pos < q.length := (List.getElem?_eq_some.1 hp).1
  have hL := find_levels_cancel b id e q he hq hpos
  have hI := find_index_cancel b hb id e he
  have hqueue : b.queue e.side e.px = q := queue_of_find b _ _ q hq
  rw [hqueue]
  refine ⟨⟨o, hp, ho1⟩, ?_, find_index_cancel_self b id, ?_, ?_⟩
  · unfold OrderBook.queue
    rw [hL, if_pos ⟨rfl, rfl⟩]
    by_cases hem : q.eraseIdx e.pos = []
    · rw [if_pos hem, hem]
      rfl
    · rw [if_neg hem]
      rfl
  · intro p o1 hlt hp1
    have hold := hb.complete e.side e.px q p o1 hq hp1
    have hne : ¬ o1.id = id := by
      intro c
      rw [c, he] at hold
      have := congrArg IndexEntry.pos (Option.some.inj hold)
      simp at this
      omega
    refine ⟨hold, ?_⟩
    rw [hI, if_neg hne, hold]
    have hcond : True ∧ True ∧ e.pos < p := ⟨trivial, trivial, hlt⟩
    simp only [Option.map_some', shifted]
    rw [if_pos hcond]
  · intro p o1 hlt hp1
    have hold := hb.complete e.side e.px q p o1 hq hp1
    have hne : ¬ o1.id = id := by
      intro c
      rw [c, he] at hold
      have := congrArg IndexEntry.pos (Option.some.inj hold)
      simp at this
      omega
    refine ⟨hold, ?_⟩
    rw [hI, if_neg hne, hold]
    have hcond : ¬ (True ∧ True ∧ e.pos < p) := by
      intro c
      omega
    simp only [Option.map_some', shifted]
    rw [if_neg hcond]

theorem cancel_known_witness :
    Reachable scenario1 ∧
    SMap.find scenario1.index 101 = some ⟨Side.Buy, 100, 0⟩ ∧
    (cancel scenario1 101).queue Side.Buy 100 = (scenario1.queue Side.Buy 100).eraseIdx 0 ∧
    ((cancel scenario1 101).queue Side.Buy 100).map (fun o => o.id) = [102] ∧
    SMap.find (cancel scenario1 101).index 101 = none ∧
    SMap.find scenario1.index 102 = some ⟨Side.Buy, 100, 1⟩ ∧
    SMap.find (cancel scenario1 101).index 102 = some ⟨Side.Buy, 100, 0⟩ :=
  ⟨scenario1_reachable, by decide,
    (cancel_known scenario1 scenario1_reachable 101 ⟨Side.Buy, 100, 0⟩ (by decide)).2.1,
    by decide, by decide, by decide, by decide⟩

/-- C5: `cancel` of an id that is not in the index leaves bids, asks and the index as
they were, so a second such call in a row is a no-op as well. -/
theorem cancel_unknown_noop (b : OrderBook) (id : OrderId)
    (hn : SMap.find b.index id = none) :
    (cancel b id).bids = b.bids ∧ (cancel b id).asks = b.asks ∧
    (cancel b id).index = b.index ∧ cancel (cancel b id) id = b := by
  have h := cancel_unknown b id hn
  rw [h]
  exact ⟨rfl, rfl, rfl, h⟩

theorem cancel_unknown_noop_witness :
    SMap.find scenario1.index 999 = none ∧
    (cancel scenario1 999).bids = scenario1.bids ∧
    (cancel scenario1 999).asks = scenario1.asks ∧
    (cancel scenario1 999).index = scenario1.index ∧
    cancel (cancel scenario1 999) 999 = scenario1 :=
  ⟨by decide, cancel_unknown_noop scenario1 999 (by decide)⟩

/-- C6: `cancel` is total (a function of the book and the id, with no throwing path) and
idempotent: on every book and for every id, known or not, the id is out of the index
after one call and a second call in a row changes nothing. -/
theorem cancel_idempotent (b : OrderBook) (id : OrderId) :
    SMap.find (cancel b id).index id = none ∧ cancel (cancel b id) id = cancel b id :=
  ⟨find_index_cancel_self b id, cancel_unknown (cancel b id) id (find_index_cancel_self b id)⟩

/-- C7: on a reachable book, after `cancel` of a resting order its price level is absent
from its side's map exactly when that order was the only one in the level's queue, and
otherwise the level is still there with a non-empty queue. -/
theorem cancel_level_erased_iff (b : OrderBook) (hr : Reachable b) (id : OrderId)
    (e : IndexEntry) (he : SMap.find b.index id = some e) :
    (SMap.find ((cancel b id).levels e.side) e.px = none
      ↔ ∃ o, o.id = id ∧ SMap.find (b.levels e.side) e.px = some [o]) ∧
    ((¬ ∃ o, o.id = id ∧ SMap.find (b.levels e.side) e.px = some [o]) →
      ∃ q1, SMap.find ((cancel b id).levels e.side) e.px = some q1 ∧ q1 ≠ []) := by
  have hb := reachable_inv b hr
  obtain ⟨q, o, hq, hp, ho1, _, _⟩ := hb.sound id e he
  have hpos : e.pos < q.length := (List.getElem?_eq_some.1 hp).1
  have hL := find_levels_cancel b id e q he hq hpos
  rw [hL, if_pos ⟨rfl, rfl⟩, hq]
  have hiff : q.eraseIdx e.pos = [] ↔ ∃ o1, o1.id = id ∧ some q = some [o1] := by
    rw [List.eraseIdx_eq_nil]
    constructor
    · rintro (h | ⟨h1, h2⟩)
      · rw [h] at hpos
        simp at hpos
      · obtain ⟨a, ha⟩ := List.length_eq_one.1 h1
        rw [ha, h2] at hp
        have hao : a = o := by simpa using hp
        exact ⟨o, ho1, by rw [ha, hao]⟩
    · rintro ⟨o1, _, h⟩
      have hq1 : q = [o1] := Option.some.inj h
      right
      rw [hq1] at hpos ⊢
      simp at hpos
      exact ⟨rfl, hpos⟩
  by_cases hem : q.eraseIdx e.pos = []
  · rw [if_pos hem]
    exact ⟨⟨fun _ => hiff.1 hem, fun _ => rfl⟩, fun hno => absurd (hiff.1 hem) hno⟩
  · rw [if_neg hem]
    refine ⟨⟨fun h => Option.noConfusion h, fun h => absurd (hiff.2 h) hem⟩, ?_⟩
    intro _
    exact ⟨q.eraseIdx e.pos, rfl, hem⟩

theorem cancel_level_erased_iff_witness :
    Reachable book300 ∧
    SMap.find book300.index 300 = some ⟨Side.Sell, 105, 0⟩ ∧
    SMap.find (cancel (cancel scenario1 102) 201).asks 105 = none ∧
    (SMap.find ((cancel book300 300).levels Side.Sell) 105 = none
      ↔ ∃ o, o.id = 300 ∧ SMap.find (book300.levels Side.Sell) 105 = some [o]) ∧
    SMap.find (cancel book300 300).asks 105 = none :=
  ⟨book300_reachable, by decide, by decide,
    (cancel_level_erased_iff book300 book300_reachable 300 ⟨Side.Sell, 105, 0⟩ (by decide)).1,
    by decide⟩

/-- C8: on a reachable book (throwing `add_limit` calls included among the steps) every
index entry `id -> (side, px, pos)` names a level `px` present on that side whose queue
has at `pos` an order with that id, that side and that limit price; and every order of
every queue has an index entry, which records exactly the place of the order. -/
theorem index_position_invariant (b : OrderBook) (hr : Reachable b) :
    (∀ id e, SMap.find b.index id = some e →
      ∃ q o, SMap.find (b.levels e.side) e.px = some q ∧ q[e.pos]? = some o ∧
        o.id = id ∧ o.side = e.side ∧ o.limit_price = e.px) ∧
    (∀ s, ∀ x ∈ b.levels s, ∀ o ∈ x.2,
      ∃ p, x.2[p]? = some o ∧ SMap.find b.index o.id = some ⟨s, x.1, p⟩) := by
  have hb := reachable_inv b hr
  refine ⟨hb.sound, ?_⟩
  intro s x hx o ho
  obtain ⟨p, hp⟩ := List.getElem?_of_mem ho
  exact ⟨p, hp, hb.complete s x.1 x.2 p o (levels_ordered b hb s x hx) hp⟩

theorem index_position_invariant_witness :
    Reachable (cancel (add_limit scenario1 duplicate101).2 101) ∧
    (add_limit scenario1 duplicate101).1 = Outcome.threw BookError.DuplicateOrderId ∧
    SMap.find (cancel (add_limit scenario1 duplicate101).2 101).index 102
      = some ⟨Side.Buy, 100, 0⟩ ∧
    (∀ s, ∀ x ∈ (cancel (add_limit scenario1 duplicate101).2 101).levels s, ∀ o ∈ x.2,
      ∃ p, x.2[p]? = some o ∧
        SMap.find (cancel (add_limit scenario1 duplicate101).2 101).index o.id
          = some ⟨s, x.1, p⟩) :=
  ⟨Reachable.cancel _ _ (Reachable.add_limit _ _ scenario1_reachable), by decide, by decide,
    (index_position_invariant _
      (Reachable.cancel _ _ (Reachable.add_limit _ _ scenario1_reachable))).2⟩

/-- C9: on a reachable book no price level of bids or of asks has an empty queue. -/
theorem no_empty_level (b : OrderBook) (hr : Reachable b) :
    (∀ x ∈ b.bids, x.2 ≠ []) ∧ (∀ x ∈ b.asks, x.2 ≠ []) := by
  have hb := reachable_inv b hr
  exact ⟨fun x hx => hb.nonempty Side.Buy x.1 x.2 (levels_ordered b hb Side.Buy x hx),
    fun x hx => hb.nonempty Side.Sell x.1 x.2 (levels_ordered b hb Side.Sell x hx)⟩

theorem no_empty_level_witness :
    Reachable (cancel book300 300) ∧
    (cancel book300 300).asks.map (fun x => x.1) = [102, 103] ∧
    ((∀ x ∈ (cancel book300 300).bids, x.2 ≠ []) ∧
     (∀ x ∈ (cancel book300 300).asks, x.2 ≠ [])) :=
  ⟨Reachable.cancel _ _ book300_reachable, by decide,
    no_empty_level _ (Reachable.cancel _ _ book300_reachable)⟩

/-- C10: on a reachable book the number of index entries is the sum of the queue lengths
over all bid levels and all ask levels. -/
theorem index_count (b : OrderBook) (hr : Reachable b) :
    b.index.length = restingCount b.bids + restingCount b.asks :=
  (reachable_inv b hr).count

theorem index_count_witness :
    Reachable (cancel scenario1 102) ∧ (cancel scenario1 102).index.length = 5 ∧
    (cancel scenario1 102).index.length
      = restingCount (cancel scenario1 102).bids + restingCount (cancel scenario1 102).asks :=
  ⟨Reachable.cancel _ _ scenario1_reachable, by decide,
    index_count _ (Reachable.cancel _ _ scenario1_reachable)⟩

/-! ## Extensionality of ordered maps and of consistent books -/

theorem SMap.ordered_ext {κ ν : Type} [DecidableEq κ] (before : κ → κ → Prop)
    [IsStrictTotalOrder κ before] (m1 m2 : SMap κ ν)
    (h1 : SMap.Ordered before m1) (h2 : SMap.Ordered before m2)
    (h : ∀ k, SMap.find m1 k = SMap.find m2 k) : m1 = m2 := by
  induction m1 generalizing m2 with
  | nil =>
    cases m2 with
    | nil => rfl
    | cons a r2 =>
      obtain ⟨k2, v2⟩ := a
      have := h k2
      simp [SMap.find] at this
  | cons a r1 ih =>
    obtain ⟨k1, v1⟩ := a
    cases m2 with
    | nil =>
      have := h k1
      simp [SMap.find] at this
    | cons c r2 =>
      obtain ⟨k2, v2⟩ := c
      unfold SMap.Ordered at h1 h2 ih
      rw [List.pairwise_cons] at h1 h2
      have hr1 : ∀ k, before k k1 ∨ k = k1 → SMap.find r1 k = none := by
        intro k hk
        rw [SMap.find_eq_none_iff]
        intro x hx hxk
        have hb := h1.1 x hx
        rw [hxk] at hb
        rcases hk with hk | hk
        · exact irrefl k (IsTrans.trans _ _ _ hk hb)
        · rw [hk] at hb
          exact irrefl k1 hb
      have hr2 : ∀ k, before k k2 ∨ k = k2 → SMap.find r2 k = none := by
        intro k hk
        rw [SMap.find_eq_none_iff]
        intro x hx hxk
        have hb := h2.1 x hx
        rw [hxk] at hb
        rcases hk with hk | hk
        · exact irrefl k (IsTrans.trans _ _ _ hk hb)
        · rw [hk] at hb
          exact irrefl k2 hb
      have hk : k1 = k2 := by
        rcases trichotomous (r := before) k1 k2 with c | c | c
        · have e := h k1
          have hne : ¬ k2 = k1 := by
            intro e2
            rw [e2] at c
            exact irrefl k1 c
          simp [SMap.find, hne, hr2 k1 (Or.inl c)] at e
        · exact c
        · have e := h k2
          have hne : ¬ k1 = k2 := by
            intro e2
            rw [e2] at c
            exact irrefl k2 c
          simp [SMap.find, hne, hr1 k2 (Or.inl c)] at e
      subst hk
      have hv : v1 = v2 := by
        have e := h k1
        simpa [SMap.find] using e
      subst hv
      have hrest : ∀ k, SMap.find r1 k = SMap.find r2 k := by
        intro k
        by_cases hkk : k = k1
        · rw [hr1 k (Or.inr hkk), hr2 k (Or.inr hkk)]
        · have e := h k
          have hne : ¬ k1 = k := fun c => hkk c.symm
          simpa [SMap.find, hne] using e
      rw [ih r2 h1.2 h2.2 hrest]

theorem index_of_levels (b1 b2 : OrderBook) (h1 : Inv b1) (h2 : Inv b2)
    (h : ∀ s j, SMap.find (b1.levels s) j = SMap.find (b2.levels s) j)
    (j : OrderId) (e : IndexEntry) (he : SMap.find b1.index j = some e) :
    SMap.find b2.index j = some e := by
  obtain ⟨q, o, hq, hp, ho, _, _⟩ := h1.sound j e he
  rw [h] at hq
  have := h2.complete e.side e.px q e.pos o hq hp
  rw [ho] at this
  exact this

/-- Two consistent books with the same levels are the same book. -/
theorem book_ext (b1 b2 : OrderBook) (h1 : Inv b1) (h2 : Inv b2)
    (h : ∀ s j, SMap.find (b1.levels s) j = SMap.find (b2.levels s) j) : b1 = b2 := by
  have hbids : b1.bids = b2.bids :=
    SMap.ordered_ext bidBefore _ _ h1.bids_ordered h2.bids_ordered (h Side.Buy)
  have hasks : b1.asks = b2.asks :=
    SMap.ordered_ext askBefore _ _ h1.asks_ordered h2.asks_ordered (h Side.Sell)
  have hindex : b1.index = b2.index := by
    apply SMap.ordered_ext idBefore _ _ h1.index_ordered h2.index_ordered
    intro j
    cases hf : SMap.find b1.index j with
    | some e => rw [index_of_levels b1 b2 h1 h2 h j e hf]
    | none =>
      cases hg : SMap.find b2.index j with
      | none => rfl
      | some e =>
        have := index_of_levels b2 b1 h2 h1 (fun s k => (h s k).symm) j e hg
        rw [hf] at this
        exact Option.noConfusion this
  cases b1
  cases b2
  simp only [OrderBook.mk.injEq]
  exact ⟨hbids, hasks, hindex⟩

theorem levels_other_add_limit (b : OrderBook) (o : Order) (s : Side) (hs : s ≠ o.side) :
    (add_limit b o).2.levels s = b.levels s := by
  by_cases h1 : o.type = OrdType.Limit
  · cases h2 : SMap.find b.index o.id with
    | some e => rw [add_limit_reject b o (Or.inr (by simp [h2]))]
    | none =>
      cases hside : o.side with
      | Buy =>
        rw [add_limit_buy b o h1 h2 hside]
        cases s with
        | Buy => exact absurd hside.symm hs
        | Sell => rfl
      | Sell =>
        rw [add_limit_sell b o h1 h2 hside]
        cases s with
        | Buy => rfl
        | Sell => exact absurd hside.symm hs
  · rw [add_limit_reject b o (Or.inl h1)]

theorem levels_other_cancel (b : OrderBook) (id : OrderId) (e : IndexEntry)
    (he : SMap.find b.index id = some e) (s : Side) (hs : s ≠ e.side) :
    (cancel b id).levels s = b.levels s := by
  cases hside : e.side with
  | Buy =>
    rw [cancel_buy b id e he hside]
    cases s with
    | Buy => exact absurd hside.symm hs
    | Sell => rfl
  | Sell =>
    rw [cancel_sell b id e he hside]
    cases s with
    | Buy => rfl
    | Sell => exact absurd hside.symm hs

/-- C11: on a reachable book no two resting orders share an id: two places of the
queues (on either side, at any levels, at any positions) that hold orders with one id
are the same place. -/
theorem unique_ids (b : OrderBook) (hr : Reachable b) (s1 s2 : Side)
    (x1 x2 : Price × LevelQueue) (p1 p2 : Nat) (o1 o2 : Order)
    (hx1 : x1 ∈ b.levels s1) (hx2 : x2 ∈ b.levels s2)
    (hp1 : x1.2[p1]? = some o1) (hp2 : x2.2[p2]? = some o2) (hid : o1.id = o2.id) :
    s1 = s2 ∧ x1 = x2 ∧ p1 = p2 := by
  have hb := reachable_inv b hr
  have hf1 := levels_ordered b hb s1 x1 hx1
  have hf2 := levels_ordered b hb s2 x2 hx2
  have e1 := hb.complete s1 x1.1 x1.2 p1 o1 hf1 hp1
  have e2 := hb.complete s2 x2.1 x2.2 p2 o2 hf2 hp2
  rw [hid, e2] at e1
  have he := Option.some.inj e1
  have hs : s1 = s2 := (congrArg IndexEntry.side he).symm
  have hpx : x1.1 = x2.1 := (congrArg IndexEntry.px he).symm
  have hp : p1 = p2 := (congrArg IndexEntry.pos he).symm
  subst hs
  rw [hpx, hf2] at hf1
  exact ⟨rfl, Prod.ext hpx (Option.some.inj hf1).symm, hp⟩

theorem unique_ids_witness :
    Reachable scenario1 ∧
    ((100 : Price), [make_order 101 Side.Buy 100 5 10, make_order 102 Side.Buy 100 3 20])
      ∈ scenario1.levels Side.Buy ∧
    (∀ (s2 : Side) (x2 : Price × LevelQueue) (p2 : Nat) (o2 : Order),
      x2 ∈ scenario1.levels s2 → x2.2[p2]? = some o2 → o2.id = 102 →
      s2 = Side.Buy ∧ x2.1 = 100 ∧ p2 = 1) :=
  ⟨scenario1_reachable, by decide, fun s2 x2 p2 o2 hx2 hp2 hid =>
    have h := unique_ids scenario1 scenario1_reachable s2 Side.Buy x2
      ((100 : Price), [make_order 101 Side.Buy 100 5 10, make_order 102 Side.Buy 100 3 20])
      p2 1 o2 (make_order 102 Side.Buy 100 3 20) hx2 (by decide) hp2 (by decide) hid
    ⟨h.1, congrArg Prod.fst h.2.1, h.2.2⟩⟩

/-- C13: `add_limit` does no matching.  For every book and every accepted order `o`,
whatever its price (crossing or not): the map of the opposite side is unchanged, every
level of `o`'s side at another price is unchanged, every order that rested before is at
the same place of the same queue with the same record (so the same quantity), and every
index entry that existed is unchanged. -/
theorem add_limit_no_matching (b : OrderBook) (o : Order) (hk : o.type = OrdType.Limit)
    (hn : SMap.find b.index o.id = none) :
    (∀ s, s ≠ o.side → (add_limit b o).2.levels s = b.levels s) ∧
    (∀ j, j ≠ o.limit_price →
      SMap.find ((add_limit b o).2.levels o.side) j = SMap.find (b.levels o.side) j) ∧
    (∀ (s : Side) (px : Price) (p : Nat) (o1 : Order), (b.queue s px)[p]? = some o1 →
      ((add_limit b o).2.queue s px)[p]? = some o1) ∧
    (∀ j e, SMap.find b.index j = some e → SMap.find (add_limit b o).2.index j = some e) := by
  refine ⟨fun s hs => levels_other_add_limit b o s hs, ?_, ?_, ?_⟩
  · intro j hj
    rw [find_levels_add_limit b o hk hn]
    have hc : ¬ (o.side = o.side ∧ j = o.limit_price) := fun c => hj c.2
    rw [if_neg hc]
  · intro s px p o1 hp
    have hq : (add_limit b o).2.queue s px
        = if s = o.side ∧ px = o.limit_price then b.queue s px ++ [o] else b.queue s px := by
      unfold OrderBook.queue
      rw [find_levels_add_limit b o hk hn]
      by_cases hc : s = o.side ∧ px = o.limit_price
      · rw [if_pos hc, if_pos hc]
        rfl
      · rw [if_neg hc, if_neg hc]
    rw [hq]
    by_cases hc : s = o.side ∧ px = o.limit_price
    · rw [if_pos hc]
      have hlt : p < (b.queue s px).length := (List.getElem?_eq_some.1 hp).1
      rw [List.getElem?_append_left hlt]
      exact hp
    · rw [if_neg hc]
      exact hp
  · intro j e he
    rw [find_index_add_limit b o hk hn]
    have hne : ¬ j = o.id := by
      intro c
      rw [c, hn] at he
      exact Option.noConfusion he
    rw [if_neg hne]
    exact he

theorem add_limit_no_matching_witness :
    crossingBuy.type = OrdType.Limit ∧ SMap.find scenario1.index crossingBuy.id = none ∧
    scenario1.asks.head?.map (fun x => x.1) = some crossingBuy.limit_price ∧
    (add_limit scenario1 crossingBuy).1 = Outcome.ok ∧
    (∀ s, s ≠ crossingBuy.side → (add_limit scenario1 crossingBuy).2.levels s
      = scenario1.levels s) ∧
    (add_limit scenario1 crossingBuy).2.asks = scenario1.asks ∧
    (add_limit scenario1 crossingBuy).2.bids.map (fun x => (x.1, x.2.map (fun o => o.id)))
      = [(102, [400]), (100, [101, 102]), (99, [103])] :=
  ⟨by decide, by decide, by decide, by decide,
    (add_limit_no_matching scenario1 crossingBuy (by decide) (by decide)).1,
    by decide, by decide⟩

/-- C18: on a reachable book the two guards of `cancel` never fire for an id of the
index: the recorded level is in the recorded side's map and the recorded position is
below the length of its queue, so the call runs the erase, the re-index loop and the
level clean-up, and the side holds one order less afterwards. -/
theorem cancel_guards_unreachable (b : OrderBook) (hr : Reachable b) (id : OrderId)
    (e : IndexEntry) (he : SMap.find b.index id = some e) :
    ∃ q, SMap.find (b.levels e.side) e.px = some q ∧ e.pos < q.length ∧
      cancelIn (b.levels e.side) b.index id e.px e.pos =
        (if q.eraseIdx e.pos = []
          then SMap.erase (SMap.modify (b.levels e.side) e.px (fun _ => q.eraseIdx e.pos)) e.px
          else SMap.modify (b.levels e.side) e.px (fun _ => q.eraseIdx e.pos),
         SMap.erase (reindexFrom e.pos (q.drop (e.pos + 1)) b.index) id) ∧
      restingCount ((cancel b id).levels e.side) + 1 = restingCount (b.levels e.side) := by
  have hb := reachable_inv b hr
  obtain ⟨q, o, hq, hp, _, _, _⟩ := hb.sound id e he
  have hpos : e.pos < q.length := (List.getElem?_eq_some.1 hp).1
  refine ⟨q, hq, hpos, cancelIn_found _ _ _ _ _ q hq hpos, ?_⟩
  cases hs : e.side with
  | Buy =>
    rw [hs] at hq
    rw [cancel_buy b id e he hs]
    exact restingCount_cancelIn bidBefore b.bids b.index id e.px e.pos q hb.bids_ordered hq hpos
  | Sell =>
    rw [hs] at hq
    rw [cancel_sell b id e he hs]
    exact restingCount_cancelIn askBefore b.asks b.index id e.px e.pos q hb.asks_ordered hq hpos

theorem cancel_guards_unreachable_witness :
    Reachable scenario1 ∧ SMap.find scenario1.index 201 = some ⟨Side.Sell, 102, 0⟩ ∧
    ∃ q, SMap.find (scenario1.levels Side.Sell) 102 = some q ∧ 0 < q.length ∧
      cancelIn (scenario1.levels Side.Sell) scenario1.index 201 102 0 =
        (if q.eraseIdx 0 = []
          then SMap.erase (SMap.modify (scenario1.levels Side.Sell) 102
            (fun _ => q.eraseIdx 0)) 102
          else SMap.modify (scenario1.levels Side.Sell) 102 (fun _ => q.eraseIdx 0),
         SMap.erase (reindexFrom 0 (q.drop (0 + 1)) scenario1.index) 201) ∧
      restingCount ((cancel scenario1 201).levels Side.Sell) + 1
        = restingCount (scenario1.levels Side.Sell) :=
  ⟨scenario1_reachable, by decide,
    cancel_guards_unreachable scenario1 scenario1_reachable 201 ⟨Side.Sell, 102, 0⟩
      (by decide)⟩

theorem cancel_add_limit (b : OrderBook) (hb : Inv b) (o : Order)
    (hk : o.type = OrdType.Limit) (hn : SMap.find b.index o.id = none) :
    cancel (add_limit b o).2 o.id = b := by
  have hb1 : Inv (add_limit b o).2 := inv_add_limit b o hb
  apply book_ext _ _ (inv_cancel _ _ hb1) hb
  intro s j
  have he : SMap.find (add_limit b o).2.index o.id
      = some ⟨o.side, o.limit_price, (b.queue o.side o.limit_price).length⟩ := by
    rw [find_index_add_limit b o hk hn, if_pos rfl]
  have hq : SMap.find ((add_limit b o).2.levels o.side) o.limit_price
      = some (b.queue o.side o.limit_price ++ [o]) := by
    rw [find_levels_add_limit b o hk hn, if_pos ⟨rfl, rfl⟩]
  have hpos : (b.queue o.side o.limit_price).length
      < (b.queue o.side o.limit_price ++ [o]).length := by simp
  have hL := find_levels_cancel (add_limit b o).2 o.id
    ⟨o.side, o.limit_price, (b.queue o.side o.limit_price).length⟩
    (b.queue o.side o.limit_price ++ [o]) he hq hpos s j
  have her : (b.queue o.side o.limit_price ++ [o]).eraseIdx
      (b.queue o.side o.limit_price).length = b.queue o.side o.limit_price := by
    rw [List.eraseIdx_append_of_length_le (Nat.le_refl _)]
    simp
  rw [hL]
  simp only [her]
  by_cases hc : s = o.side ∧ j = o.limit_price
  · rw [if_pos hc, hc.1, hc.2]
    cases hf : SMap.find (b.levels o.side) o.limit_price with
    | none => simp [OrderBook.queue, hf]
    | some q0 =>
      have hne := hb.nonempty o.side o.limit_price q0 hf
      simp [OrderBook.queue, hf, hne]
  · rw [if_neg hc, find_levels_add_limit b o hk hn, if_neg hc]

/-- C12: on a reachable book, `add_limit` of a Limit order whose id is not in the index
followed at once by `cancel` of that id gives back bids, asks and the index as they were
before the add, and with them the best bid, the best ask and the mid. -/
theorem add_then_cancel_restores (b : OrderBook) (hr : Reachable b) (o : Order)
    (hk : o.type = OrdType.Limit) (hn : SMap.find b.index o.id = none) :
    (cancel (add_limit b o).2 o.id).bids = b.bids ∧
    (cancel (add_limit b o).2 o.id).asks = b.asks ∧
    (cancel (add_limit b o).2 o.id).index = b.index ∧
    best_bid (cancel (add_limit b o).2 o.id) = best_bid b ∧
    best_ask (cancel (add_limit b o).2 o.id) = best_ask b ∧
    mid (cancel (add_limit b o).2 o.id) = mid b := by
  rw [cancel_add_limit b (reachable_inv b hr) o hk hn]
  exact ⟨rfl, rfl, rfl, rfl, rfl, rfl⟩

theorem add_then_cancel_restores_witness :
    Reachable scenario2 ∧ (make_order 300 Side.Sell 105 2 100).type = OrdType.Limit ∧
    SMap.find scenario2.index 300 = none ∧
    best_ask scenario2 = some 102 ∧
    (add_limit scenario2 (make_order 300 Side.Sell 105 2 100)).2.asks.length = 3 ∧
    (cancel (add_limit scenario2 (make_order 300 Side.Sell 105 2 100)).2 300).asks
      = scenario2.asks ∧
    best_ask (cancel (add_limit scenario2 (make_order 300 Side.Sell 105 2 100)).2 300)
      = best_ask scenario2 :=
  ⟨Reachable.cancel _ _ (Reachable.cancel _ _ scenario1_reachable), by decide, by decide,
    by decide, by decide,
    (add_then_cancel_restores scenario2
      (Reachable.cancel _ _ (Reachable.cancel _ _ scenario1_reachable))
      (make_order 300 Side.Sell 105 2 100) (by decide) (by decide)).2.1,
    by decide⟩

/-- C14: on a reachable book `cancel` touches only the level of the cancelled order.  An
unknown id changes nothing.  For an id the index binds to `e`: the map of the other side
is unchanged; every level of `e.side` at a price other than `e.px` is unchanged; the
index entry of every order of a level other than `(e.side, e.px)` is unchanged.  And
every order that rests after the call rested before it in the same level with the same
record, so no quantity changes. -/
theorem cancel_frame (b : OrderBook) (hr : Reachable b) (id : OrderId) :
    (SMap.find b.index id = none → cancel b id = b) ∧
    (∀ e, SMap.find b.index id = some e →
      (∀ s, s ≠ e.side → (cancel b id).levels s = b.levels s) ∧
      (∀ j, j ≠ e.px →
        SMap.find ((cancel b id).levels e.side) j = SMap.find (b.levels e.side) j) ∧
      (∀ s px, ¬ (s = e.side ∧ px = e.px) → ∀ o1 ∈ b.queue s px,
        SMap.find (cancel b id).index o1.id = SMap.find b.index o1.id)) ∧
    (∀ s px, ∀ o1 ∈ (cancel b id).queue s px, o1 ∈ b.queue s px) := by
  have hb := reachable_inv b hr
  refine ⟨cancel_unknown b id, ?_, ?_⟩
  · intro e he
    obtain ⟨q, o, hq, hp, _, _, _⟩ := hb.sound id e he
    have hpos : e.pos < q.length := (List.getElem?_eq_some.1 hp).1
    refine ⟨fun s hs => levels_other_cancel b id e he s hs, ?_, ?_⟩
    · intro j hj
      rw [find_levels_cancel b id e q he hq hpos]
      have hc : ¬ (e.side = e.side ∧ j = e.px) := fun c => hj c.2
      rw [if_neg hc]
    · intro s px hc o1 ho1
      cases hf : SMap.find (b.levels s) px with
      | none => simp [OrderBook.queue, hf] at ho1
      | some q1 =>
        rw [queue_of_find b s px q1 hf] at ho1
        obtain ⟨p, hp1⟩ := List.getElem?_of_mem ho1
        have hold := hb.complete s px q1 p o1 hf hp1
        have hne : ¬ o1.id = id := by
          intro c
          rw [c, he] at hold
          have h5 := Option.some.inj hold
          apply hc
          rw [h5]
          exact ⟨rfl, rfl⟩
        rw [find_index_cancel b hb id e he, if_neg hne, hold]
        have hcond : ¬ (s = e.side ∧ px = e.px ∧ e.pos < p) := fun c => hc ⟨c.1, c.2.1⟩
        simp only [Option.map_some', shifted]
        rw [if_neg hcond]
  · intro s px o1 ho1
    cases he : SMap.find b.index id with
    | none =>
      rw [cancel_unknown b id he] at ho1
      exact ho1
    | some e =>
      obtain ⟨q, o, hq, hp, _, _, _⟩ := hb.sound id e he
      have hpos : e.pos < q.length := (List.getElem?_eq_some.1 hp).1
      unfold OrderBook.queue at ho1
      rw [find_levels_cancel b id e q he hq hpos] at ho1
      by_cases hc : s = e.side ∧ px = e.px
      · rw [if_pos hc] at ho1
        rw [hc.1, hc.2, queue_of_find b _ _ q hq]
        by_cases hem : q.eraseIdx e.pos = []
        · rw [if_pos hem] at ho1
          simp at ho1
        · rw [if_neg hem] at ho1
          exact List.mem_of_mem_eraseIdx ho1
      · rw [if_neg hc] at ho1
        exact ho1

theorem cancel_frame_witness :
    Reachable (cancel scenario1 102) ∧
    SMap.find (cancel scenario1 102).index 201 = some ⟨Side.Sell, 102, 0⟩ ∧
    (∀ s, s ≠ Side.Sell → (cancel (cancel scenario1 102) 201).levels s
      = (cancel scenario1 102).levels s) ∧
    (scenario2.queue Side.Buy 100).map (fun o => (o.id, o.qty)) = [(101, 5)] ∧
    (scenario2.queue Side.Sell 102).map (fun o => (o.id, o.qty)) = [(203, 2)] ∧
    scenario2.queue Side.Buy 99 = scenario1.queue Side.Buy 99 ∧
    scenario2.queue Side.Sell 103 = scenario1.queue Side.Sell 103 :=
  ⟨Reachable.cancel _ _ scenario1_reachable, by decide,
    ((cancel_frame (cancel scenario1 102) (Reachable.cancel _ _ scenario1_reachable) 201).2.1
      ⟨Side.Sell, 102, 0⟩ (by decide)).1,
    by decide, by decide, by decide, by decide⟩

/-! ## Two cancels in a row -/

theorem eraseIdx_comm_lt (l : LevelQueue) (i k : Nat) (h : i < k) :
    (l.eraseIdx i).eraseIdx (k - 1) = (l.eraseIdx k).eraseIdx i := by
  apply List.ext_getElem?
  intro n
  simp only [List.getElem?_eraseIdx]
  by_cases h1 : n < k - 1
  · by_cases h2 : n < i
    · have h3 : n < k := by omega
      simp [h1, h2, h3]
    · have h3 : n + 1 < k := by omega
      simp [h1, h2, h3]
  · have h2 : ¬ n < i := by omega
    have h3 : ¬ n + 1 < i := by omega
    have h4 : ¬ n + 1 < k := by omega
    simp [h1, h2, h3, h4]

theorem shifted_side (e e1 : IndexEntry) : (shifted e e1).side = e1.side := by
  unfold shifted
  split <;> rfl

theorem shifted_px (e e1 : IndexEntry) : (shifted e e1).px = e1.px := by
  unfold shifted
  split <;> rfl

theorem shifted_pos (e e1 : IndexEntry) :
    (shifted e e1).pos
      = if e1.side = e.side ∧ e1.px = e.px ∧ e.pos < e1.pos then e1.pos - 1 else e1.pos := by
  unfold shifted
  split <;> rfl

theorem find_index_cancel_none (b : OrderBook) (hb : Inv b) (a c : OrderId)
    (ha : SMap.find b.index a = none) : SMap.find (cancel b c).index a = none := by
  cases hc : SMap.find b.index c with
  | none => rw [cancel_unknown b c hc, ha]
  | some e =>
    rw [find_index_cancel b hb c e hc, ha]
    simp

/-- The levels after `cancel(a)` then `cancel(c)` of two distinct resting orders, from
the queues `qa` and `qc` of their levels in the book before. -/
theorem find_levels_cancel_cancel (b : OrderBook) (hb : Inv b) (a c : OrderId)
    (ea ec : IndexEntry) (qa qc : LevelQueue) (hac : a ≠ c)
    (hea : SMap.find b.index a = some ea) (hec : SMap.find b.index c = some ec)
    (hqa : SMap.find (b.levels ea.side) ea.px = some qa)
    (hqc : SMap.find (b.levels ec.side) ec.px = some qc)
    (hpa : ea.pos < qa.length) (s : Side) (j : Price) :
    SMap.find ((cancel (cancel b a) c).levels s) j =
      if s = ec.side ∧ j = ec.px then
        (if ec.side = ea.side ∧ ec.px = ea.px then
          (if (qa.eraseIdx ea.pos).eraseIdx (shifted ea ec).pos = [] then none
            else some ((qa.eraseIdx ea.pos).eraseIdx (shifted ea ec).pos))
         else
          (if qc.eraseIdx ec.pos = [] then none else some (qc.eraseIdx ec.pos)))
      else if s = ea.side ∧ j = ea.px then
        (if qa.eraseIdx ea.pos = [] then none else some (qa.eraseIdx ea.pos))
      else SMap.find (b.levels s) j := by
  have hb1 := inv_cancel b a hb
  have hI : SMap.find (cancel b a).index c = some (shifted ea ec) := by
    rw [find_index_cancel b hb a ea hea, if_neg (fun h => hac h.symm), hec]
    rfl
  obtain ⟨q1, o1, hq1, hp1, _, _, _⟩ := hb1.sound c (shifted ea ec) hI
  have hpos1 : (shifted ea ec).pos < q1.length := (List.getElem?_eq_some.1 hp1).1
  have hL := find_levels_cancel (cancel b a) c (shifted ea ec) q1 hI hq1 hpos1 s j
  rw [shifted_side, shifted_px] at hL hq1
  rw [hL, find_levels_cancel b a ea qa hea hqa hpa s j]
  rw [find_levels_cancel b a ea qa hea hqa hpa] at hq1
  by_cases hc : s = ec.side ∧ j = ec.px
  · rw [if_pos hc, if_pos hc]
    by_cases hlv : ec.side = ea.side ∧ ec.px = ea.px
    · rw [if_pos hlv] at hq1
      rw [if_pos hlv]
      by_cases hem : qa.eraseIdx ea.pos = []
      · rw [if_pos hem] at hq1
        exact Option.noConfusion hq1
      · rw [if_neg hem] at hq1
        rw [← Option.some.inj hq1]
    · rw [if_neg hlv] at hq1
      rw [if_neg hlv]
      rw [hqc] at hq1
      rw [← Option.some.inj hq1]
      have hcond : ¬ (ec.side = ea.side ∧ ec.px = ea.px ∧ ea.pos < ec.pos) :=
        fun h => hlv ⟨h.1, h.2.1⟩
      rw [shifted_pos, if_neg hcond]
  · rw [if_neg hc, if_neg hc]

theorem cancel_cancel_comm (b : OrderBook) (hb : Inv b) (a c : OrderId) :
    cancel (cancel b a) c = cancel (cancel b c) a := by
  cases hea : SMap.find b.index a with
  | none =>
    rw [cancel_unknown b a hea,
      cancel_unknown (cancel b c) a (find_index_cancel_none b hb a c hea)]
  | some ea =>
    cases hec : SMap.find b.index c with
    | none =>
      rw [cancel_unknown b c hec,
        cancel_unknown (cancel b a) c (find_index_cancel_none b hb c a hec)]
    | some ec =>
      by_cases hac : a = c
      · rw [hac]
      obtain ⟨qa, oa, hqa, hpa, hoa, _, _⟩ := hb.sound a ea hea
      obtain ⟨qc, oc, hqc, hpc, hoc, _, _⟩ := hb.sound c ec hec
      have hposa : ea.pos < qa.length := (List.getElem?_eq_some.1 hpa).1
      have hposc : ec.pos < qc.length := (List.getElem?_eq_some.1 hpc).1
      apply book_ext _ _ (inv_cancel _ _ (inv_cancel _ _ hb)) (inv_cancel _ _ (inv_cancel _ _ hb))
      intro s j
      rw [find_levels_cancel_cancel b hb a c ea ec qa qc hac hea hec hqa hqc hposa s j,
        find_levels_cancel_cancel b hb c a ec ea qc qa (fun h => hac h.symm) hec hea hqc hqa
          hposc s j]
      by_cases hlv : ec.side = ea.side ∧ ec.px = ea.px
      · have hlv2 : ea.side = ec.side ∧ ea.px = ec.px := ⟨hlv.1.symm, hlv.2.symm⟩
        have hqq : qa = qc := by
          rw [hlv.1, hlv.2, hqa] at hqc
          exact Option.some.inj hqc
        subst hqq
        have hne : ea.pos ≠ ec.pos := by
          intro h
          rw [h, hpc] at hpa
          have hoo : oc = oa := Option.some.inj hpa
          rw [hoo] at hoc
          exact hac (hoa.symm.trans hoc)
        rw [if_pos hlv, if_pos hlv2]
        by_cases hc : s = ec.side ∧ j = ec.px
        · have hc2 : s = ea.side ∧ j = ea.px := ⟨hc.1.trans hlv.1, hc.2.trans hlv.2⟩
          rw [if_pos hc, if_pos hc2]
          have hcomm : (qa.eraseIdx ea.pos).eraseIdx (shifted ea ec).pos
              = (qa.eraseIdx ec.pos).eraseIdx (shifted ec ea).pos := by
            rw [shifted_pos, shifted_pos]
            by_cases hlt : ea.pos < ec.pos
            · have h1 : ec.side = ea.side ∧ ec.px = ea.px ∧ ea.pos < ec.pos :=
                ⟨hlv.1, hlv.2, hlt⟩
              have h2 : ¬ (ea.side = ec.side ∧ ea.px = ec.px ∧ ec.pos < ea.pos) := by
                intro h
                omega
              rw [if_pos h1, if_neg h2]
              exact eraseIdx_comm_lt qa ea.pos ec.pos hlt
            · have hgt : ec.pos < ea.pos := by omega
              have h1 : ¬ (ec.side = ea.side ∧ ec.px = ea.px ∧ ea.pos < ec.pos) := by
                intro h
                omega
              have h2 : ea.side = ec.side ∧ ea.px = ec.px ∧ ec.pos < ea.pos :=
                ⟨hlv2.1, hlv2.2, hgt⟩
              rw [if_neg h1, if_pos h2]
              exact (eraseIdx_comm_lt qa ec.pos ea.pos hgt).symm
          rw [hcomm]
        · have hc2 : ¬ (s = ea.side ∧ j = ea.px) :=
            fun h => hc ⟨h.1.trans hlv2.1, h.2.trans hlv2.2⟩
          rw [if_neg hc, if_neg hc2, if_neg hc2, if_neg hc]
      · have hlv2 : ¬ (ea.side = ec.side ∧ ea.px = ec.px) :=
          fun h => hlv ⟨h.1.symm, h.2.symm⟩
        rw [if_neg hlv, if_neg hlv2]
        by_cases hc : s = ec.side ∧ j = ec.px
        · have hc2 : ¬ (s = ea.side ∧ j = ea.px) :=
            fun h => hlv ⟨hc.1.symm.trans h.1, hc.2.symm.trans h.2⟩
          rw [if_pos hc, if_neg hc2, if_pos hc]
        · rw [if_neg hc, if_neg hc]

/-- C19: on a reachable book cancels commute: for any two ids, known or not, in one
level or not, `cancel(a)` then `cancel(c)` leaves the same bids, asks and index as
`cancel(c)` then `cancel(a)`. -/
theorem cancels_commute (b : OrderBook) (hr : Reachable b) (a c : OrderId) :
    (cancel (cancel b a) c).bids = (cancel (cancel b c) a).bids ∧
    (cancel (cancel b a) c).asks = (cancel (cancel b c) a).asks ∧
    (cancel (cancel b a) c).index = (cancel (cancel b c) a).index := by
  rw [cancel_cancel_comm b (reachable_inv b hr) a c]
  exact ⟨rfl, rfl, rfl⟩

theorem cancels_commute_witness :
    Reachable scenario1 ∧
    (cancel (cancel scenario1 101) 102).index
      = [(103, ⟨Side.Buy, 99, 0⟩), (201, ⟨Side.Sell, 102, 0⟩), (202, ⟨Side.Sell, 103, 0⟩),
         (203, ⟨Side.Sell, 102, 1⟩)] ∧
    ((cancel (cancel scenario1 101) 102).bids = (cancel (cancel scenario1 102) 101).bids ∧
     (cancel (cancel scenario1 101) 102).asks = (cancel (cancel scenario1 102) 101).asks ∧
     (cancel (cancel scenario1 101) 102).index = (cancel (cancel scenario1 102) 101).index) :=
  ⟨scenario1_reachable, by decide, cancels_commute scenario1 scenario1_reachable 101 102⟩

/-! ## Quantities of resting orders -/

theorem mem_queue_add_limit (b : OrderBook) (o : Order) (s : Side) (px : Price) (o1 : Order)
    (h : o1 ∈ (add_limit b o).2.queue s px) : o1 ∈ b.queue s px ∨ o1 = o := by
  by_cases h1 : o.type = OrdType.Limit
  · cases h2 : SMap.find b.index o.id with
    | some e =>
      rw [add_limit_reject b o (Or.inr (by simp [h2]))] at h
      exact Or.inl h
    | none =>
      unfold OrderBook.queue at h
      rw [find_levels_add_limit b o h1 h2] at h
      by_cases hc : s = o.side ∧ px = o.limit_price
      · rw [if_pos hc] at h
        simp only [Option.getD_some, List.mem_append, List.mem_singleton] at h
        exact h
      · rw [if_neg hc] at h
        exact Or.inl h
  · rw [add_limit_reject b o (Or.inl h1)] at h
    exact Or.inl h

theorem mem_queue_cancel (b : OrderBook) (hb : Inv b) (id : OrderId) (s : Side) (px : Price)
    (o1 : Order) (h : o1 ∈ (cancel b id).queue s px) : o1 ∈ b.queue s px := by
  cases he : SMap.find b.index id with
  | none =>
    rw [cancel_unknown b id he] at h
    exact h
  | some e =>
    obtain ⟨q, o, hq, hp, _, _, _⟩ := hb.sound id e he
    have hpos : e.pos < q.length := (List.getElem?_eq_some.1 hp).1
    unfold OrderBook.queue at h
    rw [find_levels_cancel b id e q he hq hpos] at h
    by_cases hc : s = e.side ∧ px = e.px
    · rw [if_pos hc] at h
      rw [hc.1, hc.2, queue_of_find b _ _ q hq]
      by_cases hem : q.eraseIdx e.pos = []
      · rw [if_pos hem] at h
        simp at h
      · rw [if_neg hem] at h
        exact List.mem_of_mem_eraseIdx h
    · rw [if_neg hc] at h
      exact h

theorem reachable_of_reachablePos (b : OrderBook) (h : ReachablePos b) : Reachable b := by
  induction h with
  | empty => exact Reachable.empty
  | add_limit b o _ _ ih => exact Reachable.add_limit b o ih
  | cancel b id _ ih => exact Reachable.cancel b id ih

/-- C15, the claim as stated fails: one accepted `add_limit` of an order of quantity 0
gives a reachable book in which that order rests. -/
theorem positive_qty_counterexample :
    Reachable (add_limit OrderBook.empty zeroQtyOrder).2 ∧
    (add_limit OrderBook.empty zeroQtyOrder).1 = Outcome.ok ∧
    (add_limit OrderBook.empty zeroQtyOrder).2.bids = [(100, [zeroQtyOrder])] ∧
    ¬ (0 < zeroQtyOrder.qty) :=
  ⟨Reachable.add_limit _ _ Reachable.empty, by decide, by decide, by decide⟩

/-- C15 as amended: in every book reachable from the empty book by `cancel` calls and by
`add_limit` calls whose order has a quantity above zero, every order resting in a bid or
ask queue has a quantity above zero. -/
theorem positive_qty_of_positive_adds (b : OrderBook) (hr : ReachablePos b) :
    ∀ s, ∀ x ∈ b.levels s, ∀ o ∈ x.2, 0 < o.qty := by
  have hq : ∀ s px, ∀ o ∈ b.queue s px, 0 < o.qty := by
    induction hr with
    | empty =>
      intro s px o ho
      cases s <;> simp [OrderBook.queue, OrderBook.levels, OrderBook.empty, SMap.find] at ho
    | add_limit b o1 _ hpos ih =>
      intro s px o ho
      rcases mem_queue_add_limit b o1 s px o ho with h | h
      · exact ih s px o h
      · rw [h]
        exact hpos
    | cancel b id hrb ih =>
      intro s px o ho
      exact ih s px o
        (mem_queue_cancel b (reachable_inv b (reachable_of_reachablePos b hrb)) id s px o ho)
  intro s x hx o ho
  have hf := levels_ordered b (reachable_inv b (reachable_of_reachablePos b hr)) s x hx
  have := hq s x.1 o
  rw [queue_of_find b s x.1 x.2 hf] at this
  exact this ho

theorem positive_qty_of_positive_adds_witness :
    ReachablePos (cancel (add_limit (add_limit OrderBook.empty
      (make_order 101 Side.Buy 100 5 10)).2 (make_order 102 Side.Buy 100 3 20)).2 101) ∧
    (cancel (add_limit (add_limit OrderBook.empty
      (make_order 101 Side.Buy 100 5 10)).2 (make_order 102 Side.Buy 100 3 20)).2 101).bids
      = [(100, [make_order 102 Side.Buy 100 3 20])] ∧
    ∀ s, ∀ x ∈ (cancel (add_limit (add_limit OrderBook.empty
      (make_order 101 Side.Buy 100 5 10)).2 (make_order 102 Side.Buy 100 3 20)).2 101).levels s,
      ∀ o ∈ x.2, 0 < o.qty :=
  ⟨ReachablePos.cancel _ _ (ReachablePos.add_limit _ _
      (ReachablePos.add_limit _ _ ReachablePos.empty (by decide)) (by decide)),
    by decide,
    positive_qty_of_positive_adds _ (ReachablePos.cancel _ _ (ReachablePos.add_limit _ _
      (ReachablePos.add_limit _ _ ReachablePos.empty (by decide)) (by decide)))⟩

/-! ## Lemmas on the matching engine -/

theorem levels_setLevels_same (b : OrderBook) (s : Side) (m : SMap Price LevelQueue) :
    (b.setLevels s m).levels s = m := by
  cases s <;> rfl

theorem levels_setLevels_other (b : OrderBook) (s s1 : Side) (m : SMap Price LevelQueue)
    (h : s1 ≠ s) : (b.setLevels s m).levels s1 = b.levels s1 := by
  cases s <;> cases s1 <;> first | rfl | exact absurd rfl h

theorem index_setLevels (b : OrderBook) (s : Side) (m : SMap Price LevelQueue) :
    (b.setLevels s m).index = b.index := by
  cases s <;> rfl

theorem opposite_ne (s : Side) : s ≠ s.opposite := by
  cases s <;> simp [Side.opposite]

theorem levels_ordered_side (b : OrderBook) (hb : Inv b) (s : Side) :
    (s = Side.Buy → SMap.Ordered bidBefore (b.levels s)) ∧
    (s = Side.Sell → SMap.Ordered askBefore (b.levels s)) := by
  cases s with
  | Buy => exact ⟨fun _ => hb.bids_ordered, fun h => Side.noConfusion h⟩
  | Sell => exact ⟨fun h => Side.noConfusion h, fun _ => hb.asks_ordered⟩

theorem getElem?_fillFront (exec : Qty) (q : LevelQueue) (p : Nat) :
    (fillFront exec q)[p]?
      = (q[p]?).map (fun o => if p = 0 then { o with qty := o.qty - exec } else o) := by
  cases q with
  | nil => simp [fillFront]
  | cons maker rest =>
    cases p with
    | zero => simp [fillFront]
    | succ n => simp [fillFront]

theorem length_fillFront (exec : Qty) (q : LevelQueue) :
    (fillFront exec q).length = q.length := by
  cases q <;> simp [fillFront]

theorem restingCount_modify_length (m : SMap Price LevelQueue) (k : Price)
    (f : LevelQueue → LevelQueue) (hf : ∀ q, (f q).length = q.length) :
    restingCount (SMap.modify m k f) = restingCount m := by
  induction m with
  | nil => simp [SMap.modify]
  | cons a rest ih =>
    obtain ⟨a1, a2⟩ := a
    by_cases ha : a1 = k
    · simp [SMap.modify, ha, restingCount, hf]
    · simp only [restingCount] at ih
      simp [SMap.modify, ha, restingCount, ih]

theorem find_levels_fillFront (b : OrderBook) (s : Side) (px : Price) (exec : Qty)
    (s1 : Side) (j : Price) :
    SMap.find ((b.setLevels s (SMap.modify (b.levels s) px (fillFront exec))).levels s1) j
      = if s1 = s ∧ j = px then (SMap.find (b.levels s) px).map (fillFront exec)
        else SMap.find (b.levels s1) j := by
  by_cases hs : s1 = s
  · subst hs
    rw [levels_setLevels_same, SMap.find_modify]
    by_cases hj : j = px
    · simp [hj]
    · simp [hj]
  · rw [levels_setLevels_other b s s1 _ hs]
    have hc : ¬ (s1 = s ∧ j = px) := fun c => hs c.1
    rw [if_neg hc]

theorem inv_fillFront (b : OrderBook) (hb : Inv b) (s : Side) (px : Price) (exec : Qty) :
    Inv (b.setLevels s (SMap.modify (b.levels s) px (fillFront exec))) := by
  refine ⟨?_, ?_, ?_, ?_, ?_, ?_, ?_⟩
  · cases s with
    | Buy => exact SMap.ordered_modify bidBefore _ _ _ hb.bids_ordered
    | Sell => exact hb.bids_ordered
  · cases s with
    | Buy => exact hb.asks_ordered
    | Sell => exact SMap.ordered_modify askBefore _ _ _ hb.asks_ordered
  · rw [index_setLevels]
    exact hb.index_ordered
  · intro s1 j q h
    rw [find_levels_fillFront] at h
    by_cases hc : s1 = s ∧ j = px
    · rw [if_pos hc] at h
      cases hf : SMap.find (b.levels s) px with
      | none =>
        rw [hf] at h
        exact Option.noConfusion h
      | some q0 =>
        rw [hf] at h
        have hq : fillFront exec q0 = q := Option.some.inj h
        have hne := hb.nonempty s px q0 hf
        intro hnil
        rw [hnil] at hq
        have := length_fillFront exec q0
        rw [hq] at this
        exact hne (List.length_eq_zero.1 this.symm)
    · rw [if_neg hc] at h
      exact hb.nonempty s1 j q h
  · intro id e h
    rw [index_setLevels] at h
    obtain ⟨q, o, hq, hp, h1, h2, h3⟩ := hb.sound id e h
    by_cases hc : e.side = s ∧ e.px = px
    · refine ⟨fillFront exec q,
        (if e.pos = 0 then { o with qty := o.qty - exec } else o), ?_, ?_, ?_, ?_, ?_⟩
      · rw [find_levels_fillFront, if_pos hc, ← hc.1, ← hc.2, hq]
        rfl
      · rw [getElem?_fillFront, hp]
        rfl
      · split <;> exact h1
      · split <;> exact h2
      · split <;> exact h3
    · refine ⟨q, o, ?_, hp, h1, h2, h3⟩
      rw [find_levels_fillFront, if_neg hc]
      exact hq
  · intro s1 j q p o h hp
    rw [index_setLevels]
    rw [find_levels_fillFront] at h
    by_cases hc : s1 = s ∧ j = px
    · rw [if_pos hc] at h
      cases hf : SMap.find (b.levels s) px with
      | none =>
        rw [hf] at h
        exact Option.noConfusion h
      | some q0 =>
        rw [hf] at h
        have hq : fillFront exec q0 = q := Option.some.inj h
        rw [← hq, getElem?_fillFront] at hp
        cases hp0 : q0[p]? with
        | none =>
          rw [hp0] at hp
          exact Option.noConfusion hp
        | some o0 =>
          rw [hp0] at hp
          have ho : (if p = 0 then { o0 with qty := o0.qty - exec } else o0) = o :=
            Option.some.inj hp
          have hid : o.id = o0.id := by
            rw [← ho]
            split <;> rfl
          rw [hid, hc.1, hc.2]
          exact hb.complete s px q0 p o0 hf hp0
    · rw [if_neg hc] at h
      exact hb.complete s1 j q p o h hp
  · rw [index_setLevels, hb.count]
    cases s with
    | Buy =>
      show restingCount b.bids + restingCount b.asks
        = restingCount (SMap.modify b.bids px (fillFront exec)) + restingCount b.asks
      rw [restingCount_modify_length _ _ _ (length_fillFront exec)]
    | Sell =>
      show restingCount b.bids + restingCount b.asks
        = restingCount b.bids + restingCount (SMap.modify b.asks px (fillFront exec))
      rw [restingCount_modify_length _ _ _ (length_fillFront exec)]

theorem find_head_level (b : OrderBook) (s : Side) (px : Price) (q : LevelQueue)
    (rest : SMap Price LevelQueue) (hlev : b.levels s = (px, q) :: rest) :
    SMap.find (b.levels s) px = some q := by
  rw [hlev]
  simp [SMap.find]

theorem find_rest_none (b : OrderBook) (hb : Inv b) (s : Side) (px : Price) (q : LevelQueue)
    (rest : SMap Price LevelQueue) (hlev : b.levels s = (px, q) :: rest) :
    SMap.find rest px = none := by
  cases s with
  | Buy =>
    have ho := hb.bids_ordered
    have hl : b.bids = (px, q) :: rest := hlev
    rw [hl] at ho
    unfold SMap.Ordered at ho
    rw [List.pairwise_cons] at ho
    exact SMap.find_none_of_before bidBefore rest px ho.1
  | Sell =>
    have ho := hb.asks_ordered
    have hl : b.asks = (px, q) :: rest := hlev
    rw [hl] at ho
    unfold SMap.Ordered at ho
    rw [List.pairwise_cons] at ho
    exact SMap.find_none_of_before askBefore rest px ho.1

theorem front_price (b : OrderBook) (hb : Inv b) (s : Side) (px : Price) (maker : Order)
    (qrest : LevelQueue) (rest : SMap Price LevelQueue)
    (hlev : b.levels s = (px, maker :: qrest) :: rest) : maker.limit_price = px := by
  have hf := find_head_level b s px _ rest hlev
  have hc := hb.complete s px _ 0 maker hf (by simp)
  obtain ⟨q1, o1, hq1, hp1, _, _, h3⟩ := hb.sound maker.id _ hc
  have hq1' : SMap.find (b.levels s) px = some q1 := hq1
  rw [hf] at hq1'
  have hqq := Option.some.inj hq1'
  rw [← hqq] at hp1
  have ho : maker = o1 := by simpa using hp1
  rw [ho]
  exact h3

theorem levels_cancel_side (b : OrderBook) (id : OrderId) (e : IndexEntry)
    (he : SMap.find b.index id = some e) :
    (cancel b id).levels e.side = (cancelIn (b.levels e.side) b.index id e.px e.pos).1 := by
  cases hs : e.side with
  | Buy =>
    rw [cancel_buy b id e he hs]
    rfl
  | Sell =>
    rw [cancel_sell b id e he hs]
    rfl

theorem levels_front_cancel (b : OrderBook) (hb : Inv b) (s : Side) (px : Price)
    (maker : Order) (qrest : LevelQueue) (rest : SMap Price LevelQueue) (exec : Qty)
    (hlev : b.levels s = (px, maker :: qrest) :: rest) :
    (cancel (b.setLevels s (SMap.modify (b.levels s) px (fillFront exec))) maker.id).levels s
      = if qrest = [] then rest else (px, qrest) :: rest := by
  have hf := find_head_level b s px _ rest hlev
  have hidx : SMap.find (b.setLevels s (SMap.modify (b.levels s) px (fillFront exec))).index
      maker.id = some ⟨s, px, 0⟩ := by
    rw [index_setLevels]
    exact hb.complete s px _ 0 maker hf (by simp)
  have hl1 : (b.setLevels s (SMap.modify (b.levels s) px (fillFront exec))).levels s
      = (px, { maker with qty := maker.qty - exec } :: qrest) :: rest := by
    rw [levels_setLevels_same, hlev]
    simp [SMap.modify, fillFront]
  have hside := levels_cancel_side _ maker.id ⟨s, px, 0⟩ hidx
  simp only [] at hside
  rw [hside, hl1]
  rw [cancelIn_found _ _ maker.id px 0 ({ maker with qty := maker.qty - exec } :: qrest)
    (by simp [SMap.find]) (by simp)]
  have hrest := SMap.erase_of_find_none rest px (find_rest_none b hb s px _ rest hlev)
  by_cases hq : qrest = []
  · simp [hq, SMap.modify, SMap.erase, List.filter_cons] at hrest ⊢
    exact hrest
  · simp [hq, SMap.modify]

theorem match_step_none_of_nonpos (b : OrderBook) (t : OrderId) (side : Side)
    (limit : Option Price) (ts : TimePoint) (r : Qty) (hr : r ≤ 0) :
    match_step b t side limit ts r = none := by
  simp [match_step, hr]

theorem match_step_none_of_empty (b : OrderBook) (t : OrderId) (side : Side)
    (limit : Option Price) (ts : TimePoint) (r : Qty)
    (hlev : b.levels side.opposite = []) :
    match_step b t side limit ts r = none := by
  simp [match_step, hlev]

theorem match_step_none_of_price (b : OrderBook) (t : OrderId) (side : Side)
    (limit : Option Price) (ts : TimePoint) (r : Qty) (px : Price) (q : LevelQueue)
    (rest : SMap Price LevelQueue) (hlev : b.levels side.opposite = (px, q) :: rest)
    (hm : marketable side limit px = false) :
    match_step b t side limit ts r = none := by
  simp [match_step, hlev, hm]

theorem match_step_some (b : OrderBook) (hb : Inv b) (t : OrderId) (side : Side)
    (limit : Option Price) (ts : TimePoint) (r : Qty) (px : Price) (maker : Order)
    (qrest : LevelQueue) (rest : SMap Price LevelQueue) (hr : 0 < r)
    (hlev : b.levels side.opposite = (px, maker :: qrest) :: rest)
    (hm : marketable side limit px = true) :
    ∃ b2, match_step b t side limit ts r
        = some (⟨t, maker.id, side, maker.limit_price, min r maker.qty, ts⟩, b2,
            r - min r maker.qty) ∧
      Inv b2 ∧ b2.levels side = b.levels side ∧
      (∀ k, SMap.find b.index k = none → SMap.find b2.index k = none) ∧
      (maker.qty ≤ r →
        b2.levels side.opposite = if qrest = [] then rest else (px, qrest) :: rest) ∧
      (r < maker.qty → r - min r maker.qty = 0) ∧
      (r < maker.qty → b2.levels side.opposite
        = (px, { maker with qty := maker.qty - r } :: qrest) :: rest) := by
  have hr0 : ¬ r ≤ 0 := not_le.mpr hr
  have hl0 := hlev
  have hb1 := inv_fillFront b hb side.opposite px (min r maker.qty)
  refine ⟨if maker.qty - min r maker.qty = 0
      then cancel (b.setLevels side.opposite
        (SMap.modify (b.levels side.opposite) px (fillFront (min r maker.qty)))) maker.id
      else b.setLevels side.opposite
        (SMap.modify (b.levels side.opposite) px (fillFront (min r maker.qty))),
    ?_, ?_, ?_, ?_, ?_, ?_, ?_⟩
  · unfold match_step
    rw [if_neg hr0]
    simp only [hlev, hm, if_true]
  · split
    · exact inv_cancel _ _ hb1
    · exact hb1
  · have hidx : SMap.find (b.setLevels side.opposite
        (SMap.modify (b.levels side.opposite) px (fillFront (min r maker.qty)))).index
        maker.id = some ⟨side.opposite, px, 0⟩ := by
      rw [index_setLevels]
      exact hb.complete side.opposite px _ 0 maker
        (find_head_level b side.opposite px _ rest hlev) (by simp)
    split
    · rw [levels_other_cancel _ maker.id ⟨side.opposite, px, 0⟩ hidx side (opposite_ne side),
        levels_setLevels_other b side.opposite side _ (opposite_ne side)]
    · rw [levels_setLevels_other b side.opposite side _ (opposite_ne side)]
  · intro k hk
    split
    · apply find_index_cancel_none _ hb1
      rw [index_setLevels]
      exact hk
    · rw [index_setLevels]
      exact hk
  · intro hle
    have hmin : min r maker.qty = maker.qty := min_eq_right hle
    have hz : maker.qty - min r maker.qty = 0 := by
      rw [hmin]
      exact sub_self _
    rw [if_pos hz]
    exact levels_front_cancel b hb side.opposite px maker qrest rest _ hlev
  · intro hlt
    have hmin : min r maker.qty = r := min_eq_left (le_of_lt hlt)
    rw [hmin]
    exact sub_self _
  · intro hlt
    have hmin : min r maker.qty = r := min_eq_left (le_of_lt hlt)
    have hnz : ¬ maker.qty - min r maker.qty = 0 := by
      rw [hmin]
      intro h
      exact absurd (sub_eq_zero.1 h) (ne_of_gt hlt)
    rw [if_neg hnz, levels_setLevels_same, hl0, hmin]
    simp [SMap.modify, fillFront]

theorem priorityFills_nonpos (t : OrderId) (side : Side) (ts : TimePoint) (r : Qty)
    (l : List Order) (hr : r ≤ 0) : priorityFills t side ts r l = [] := by
  cases l with
  | nil => rfl
  | cons maker rest => simp [priorityFills, hr]

theorem consumeMakers_nonpos (side : Side) (limit : Option Price) (r : Qty)
    (l : List Order) (hr : r ≤ 0) : consumeMakers side limit r l = l := by
  cases l with
  | nil => rfl
  | cons maker rest => simp [consumeMakers, hr]

theorem match_loop_nonpos (t : OrderId) (side : Side) (limit : Option Price) (ts : TimePoint)
    (fuel : Nat) (b : OrderBook) (r : Qty) (hr : r ≤ 0) :
    match_loop t side limit ts fuel b r = ([], b, r) := by
  cases fuel with
  | zero => rfl
  | succ n => simp [match_loop, match_step_none_of_nonpos b t side limit ts r hr]

theorem match_loop_of_step_none (t : OrderId) (side : Side) (limit : Option Price)
    (ts : TimePoint) (fuel : Nat) (b : OrderBook) (r : Qty)
    (h : match_step b t side limit ts r = none) :
    match_loop t side limit ts fuel b r = ([], b, r) := by
  cases fuel with
  | zero => rfl
  | succ n => simp [match_loop, h]

theorem restingOrders_cons (px : Price) (q : LevelQueue) (rest : SMap Price LevelQueue) :
    restingOrders ((px, q) :: rest) = q ++ restingOrders rest := by
  simp [restingOrders]

theorem restingCount_cons (px : Price) (q : LevelQueue) (rest : SMap Price LevelQueue) :
    restingCount ((px, q) :: rest) = q.length + restingCount rest := by
  simp [restingCount]

/-- The matching loop on a consistent book, with at least one turn of fuel per order
resting on the opposite side: the book stays consistent, the taker's side and the ids
absent from the index are untouched, the fills are those of price-then-time priority, the
loop ends because its condition fails, and the remaining quantity is what the fills left. -/
theorem match_loop_spec (t : OrderId) (side : Side) (limit : Option Price) (ts : TimePoint) :
    ∀ (fuel : Nat) (b : OrderBook) (r : Qty), Inv b →
      restingCount (b.levels side.opposite) ≤ fuel →
      Inv (match_loop t side limit ts fuel b r).2.1 ∧
      (match_loop t side limit ts fuel b r).2.1.levels side = b.levels side ∧
      (∀ k, SMap.find b.index k = none →
        SMap.find (match_loop t side limit ts fuel b r).2.1.index k = none) ∧
      (match_loop t side limit ts fuel b r).1
        = priorityFills t side ts r (marketableMakers b side limit) ∧
      match_step (match_loop t side limit ts fuel b r).2.1 t side limit ts
        (match_loop t side limit ts fuel b r).2.2 = none ∧
      (match_loop t side limit ts fuel b r).2.2
        = r - ((match_loop t side limit ts fuel b r).1.map Fill.qty).sum ∧
      restingOrders ((match_loop t side limit ts fuel b r).2.1.levels side.opposite)
        = consumeMakers side limit r (restingOrders (b.levels side.opposite)) := by
  intro fuel
  induction fuel with
  | zero =>
    intro b r hb hfuel
    have hlev : b.levels side.opposite = [] := by
      cases hl : b.levels side.opposite with
      | nil => rfl
      | cons a rest =>
        obtain ⟨px, q⟩ := a
        have hne := hb.nonempty side.opposite px q (find_head_level b _ px q rest hl)
        rw [hl, restingCount_cons] at hfuel
        have : q.length = 0 := by omega
        exact absurd (List.length_eq_zero.1 this) hne
    have hstep := match_step_none_of_empty b t side limit ts r hlev
    refine ⟨hb, rfl, fun k hk => hk, ?_, hstep, ?_, ?_⟩
    · simp [match_loop, marketableMakers, hlev, restingOrders, priorityFills]
    · simp [match_loop]
    · simp [match_loop, hlev, restingOrders, consumeMakers]
  | succ n ih =>
    intro b r hb hfuel
    by_cases hr : r ≤ 0
    · rw [match_loop_nonpos t side limit ts (n + 1) b r hr]
      refine ⟨hb, rfl, fun k hk => hk, ?_, match_step_none_of_nonpos b t side limit ts r hr,
        ?_, ?_⟩
      · rw [priorityFills_nonpos t side ts r _ hr]
      · simp
      · rw [consumeMakers_nonpos side limit r _ hr]
    have hrpos : 0 < r := not_le.mp hr
    cases hl : b.levels side.opposite with
    | nil =>
      have hstep := match_step_none_of_empty b t side limit ts r hl
      rw [match_loop_of_step_none t side limit ts (n + 1) b r hstep]
      refine ⟨hb, rfl, fun k hk => hk, ?_, hstep, ?_, ?_⟩
      · simp [marketableMakers, hl, restingOrders, priorityFills]
      · simp
      · simp [hl, restingOrders, consumeMakers]
    | cons a rest =>
      obtain ⟨px, q⟩ := a
      have hne := hb.nonempty side.opposite px q (find_head_level b _ px q rest hl)
      cases q with
      | nil => exact absurd rfl hne
      | cons maker qrest =>
        have hprice := front_price b hb side.opposite px maker qrest rest hl
        have hmakers : marketableMakers b side limit
            = List.takeWhile (fun m => marketable side limit m.limit_price)
                (maker :: (qrest ++ restingOrders rest)) := by
          unfold marketableMakers
          rw [hl, restingOrders_cons]
          rfl
        cases hm : marketable side limit px with
        | false =>
          have hstep := match_step_none_of_price b t side limit ts r px _ rest hl hm
          rw [match_loop_of_step_none t side limit ts (n + 1) b r hstep]
          have hmk : marketable side limit maker.limit_price = false := by
            rw [hprice]
            exact hm
          refine ⟨hb, rfl, fun k hk => hk, ?_, hstep, ?_, ?_⟩
          · rw [hmakers, List.takeWhile_cons]
            simp [priorityFills, hmk]
          · simp
          · rw [hl, restingOrders_cons]
            simp [consumeMakers, hmk]
        | true =>
          obtain ⟨b2, hstep, hb2, hown, hfresh, hrem, hpart, hpartlev⟩ :=
            match_step_some b hb t side limit ts r px maker qrest rest hrpos hl hm
          have hmk : marketable side limit maker.limit_price = true := by
            rw [hprice]
            exact hm
          have hloop : match_loop t side limit ts (n + 1) b r
              = (⟨t, maker.id, side, maker.limit_price, min r maker.qty, ts⟩
                  :: (match_loop t side limit ts n b2 (r - min r maker.qty)).1,
                 (match_loop t side limit ts n b2 (r - min r maker.qty)).2.1,
                 (match_loop t side limit ts n b2 (r - min r maker.qty)).2.2) := by
            simp [match_loop, hstep]
          have hfills : priorityFills t side ts r (marketableMakers b side limit)
              = ⟨t, maker.id, side, maker.limit_price, min r maker.qty, ts⟩
                :: priorityFills t side ts (r - min r maker.qty)
                    (List.takeWhile (fun m => marketable side limit m.limit_price)
                      (qrest ++ restingOrders rest)) := by
            rw [hmakers, List.takeWhile_cons]
            simp [priorityFills, hr, hmk]
          have hcons : consumeMakers side limit r (restingOrders ((px, maker :: qrest) :: rest))
              = if maker.qty ≤ r
                then consumeMakers side limit (r - maker.qty) (qrest ++ restingOrders rest)
                else { maker with qty := maker.qty - r } :: (qrest ++ restingOrders rest) := by
            rw [restingOrders_cons]
            simp [consumeMakers, hr, hmk]
          rw [hloop, hfills, hcons]
          by_cases hle : maker.qty ≤ r
          · have hl2 := hrem hle
            have hcount : restingCount (b2.levels side.opposite) ≤ n := by
              rw [hl, restingCount_cons] at hfuel
              rw [hl2]
              by_cases hq : qrest = []
              · rw [if_pos hq]
                simp at hfuel
                omega
              · rw [if_neg hq, restingCount_cons]
                simp at hfuel
                omega
            have hmk2 : marketableMakers b2 side limit
                = List.takeWhile (fun m => marketable side limit m.limit_price)
                    (qrest ++ restingOrders rest) := by
              unfold marketableMakers
              rw [hl2]
              by_cases hq : qrest = []
              · rw [if_pos hq, hq]
                rfl
              · rw [if_neg hq, restingOrders_cons]
            have hro2 : restingOrders (b2.levels side.opposite)
                = qrest ++ restingOrders rest := by
              rw [hl2]
              by_cases hq : qrest = []
              · rw [if_pos hq, hq]
                rfl
              · rw [if_neg hq, restingOrders_cons]
            obtain ⟨i1, i2, i3, i4, i5, i6, i7⟩ := ih b2 (r - min r maker.qty) hb2 hcount
            refine ⟨i1, i2.trans hown, fun k hk => i3 k (hfresh k hk), ?_, i5, ?_, ?_⟩
            rotate_left 2
            · show restingOrders
                  ((match_loop t side limit ts n b2 (r - min r maker.qty)).2.1.levels
                    side.opposite) = _
              rw [i7, hro2, if_pos hle, min_eq_right hle]
            · rw [i4, hmk2]
            · show (match_loop t side limit ts n b2 (r - min r maker.qty)).2.2
                = r - (min r maker.qty
                    + ((match_loop t side limit ts n b2 (r - min r maker.qty)).1.map
                        Fill.qty).sum)
              rw [i6, sub_sub]
          · have hlt : r < maker.qty := not_le.mp hle
            have hz := hpart hlt
            rw [hz, match_loop_nonpos t side limit ts n b2 0 (le_refl _),
              priorityFills_nonpos t side ts 0 _ (le_refl _)]
            refine ⟨hb2, hown, hfresh, rfl,
              match_step_none_of_nonpos b2 t side limit ts 0 (le_refl _), ?_, ?_⟩
            · show (0 : Qty) = r - (min r maker.qty + 0)
              rw [add_zero]
              exact hz.symm
            · show restingOrders (b2.levels side.opposite) = _
              rw [hpartlev hlt, restingOrders_cons, if_neg hle]
              rfl

/-- C17, on the engine modelled from the spec.  On a consistent book, `submit_market`
with a quantity above zero is accepted and never rests anything: the taker's side of the
book is unchanged, no id enters the index and the book left is consistent again; and
when the opposite side is empty at the call, no fill is returned and the whole book is
unchanged. -/
theorem submit_market_never_rests (b : OrderBook) (hb : Inv b) (t : OrderId) (side : Side)
    (quantity : Qty) (ts : TimePoint) (hq : 0 < quantity) :
    (submit_market b t side quantity ts).outcome = SubmitOutcome.ok ∧
    Inv (submit_market b t side quantity ts).book ∧
    (submit_market b t side quantity ts).book.levels side = b.levels side ∧
    (∀ k, SMap.find b.index k = none →
      SMap.find (submit_market b t side quantity ts).book.index k = none) ∧
    (b.levels side.opposite = [] →
      (submit_market b t side quantity ts).fills = [] ∧
      (submit_market b t side quantity ts).book = b) := by
  obtain ⟨i1, i2, i3, _, _, _, _⟩ := match_loop_spec t side none ts
    (restingCount (b.levels side.opposite)) b quantity hb (le_refl _)
  have hc : ¬ quantity ≤ 0 := not_le.mpr hq
  unfold submit_market
  rw [if_neg hc]
  refine ⟨rfl, i1, i2, i3, ?_⟩
  intro hempty
  simp only []
  rw [match_loop_of_step_none t side none ts _ b quantity
    (match_step_none_of_empty b t side none ts quantity hempty)]
  exact ⟨rfl, rfl⟩

theorem submit_market_never_rests_witness :
    Inv scenario3_after ∧ (0 : Qty) < 7 ∧
    (submit_limit scenario3 Side.Buy 102 8 100).book = scenario3_after ∧
    scenario3_after.levels Side.Buy.opposite = [] ∧
    ((submit_market scenario3_after 6 Side.Buy 7 200).fills = [] ∧
     (submit_market scenario3_after 6 Side.Buy 7 200).book = scenario3_after) ∧
    (submit_market scenario3_after 6 Side.Sell 7 200).fills
      = [⟨6, 4, Side.Sell, 100, 6, 200⟩, ⟨6, 3, Side.Sell, 99, 1, 200⟩] ∧
    (submit_market scenario3_after 6 Side.Sell 7 200).book.asks = [] ∧
    (submit_market scenario3_after 6 Side.Sell 7 200).book.bids
      = [(99, [make_order 3 Side.Buy 99 3 30])] :=
  ⟨reachable_inv _ (Reachable.cancel _ _ (Reachable.cancel _ _
      (Reachable.add_limit _ _ (Reachable.add_limit _ _
        (Reachable.add_limit _ _ (Reachable.add_limit _ _ Reachable.empty)))))),
    by decide, by decide, by decide,
    (submit_market_never_rests scenario3_after
      (reachable_inv _ (Reachable.cancel _ _ (Reachable.cancel _ _
        (Reachable.add_limit _ _ (Reachable.add_limit _ _
          (Reachable.add_limit _ _ (Reachable.add_limit _ _ Reachable.empty)))))))
      6 Side.Buy 7 200 (by decide)).2.2.2.2 (by decide),
    by decide, by decide, by decide⟩

end LobSim
